import Mathlib

/-!
Verification of `src/algorithms/iterative_compression.py`, an iterative
compression solver for the undirected feedback vertex set (FVS) problem.

The source operates on networkx `MultiGraph`s (undirected, parallel edges
allowed).  We embed those as `MGraph`: an insertion-ordered duplicate-free
list of vertices together with a list of (unordered, possibly repeated)
edges whose endpoints are vertices.  Python sets of vertices become
`Finset ℕ`; Python's `None`-or-set results become `Option (Finset ℕ)`;
exceptions (assertion failures, `ValueError` from unpacking) become
`Except String`.  Budgets are Python ints, embedded as `ℤ`.
-/

namespace IC

/-- An undirected multigraph: ordered vertex list (no duplicates) and a
list of edges; each edge is stored once as a pair, with both orientations
meaning the same undirected edge.  Parallel edges are repeated entries. -/
structure MGraph where
  nodes : List ℕ
  edges : List (ℕ × ℕ)
  nodup : nodes.Nodup
  edges_mem : ∀ e ∈ edges, e.1 ∈ nodes ∧ e.2 ∈ nodes

namespace MGraph

theorem ext' {g g' : MGraph} (hn : g.nodes = g'.nodes) (he : g.edges = g'.edges) :
    g = g' := by
  cases g; cases g'; simp_all

/-- `networkx` `G.degree(v)` on a MultiGraph: number of edge endpoints at
`v` (a self-loop counts twice). -/
def degree (g : MGraph) (v : ℕ) : ℕ :=
  (g.edges.countP (fun e => e.1 = v)) + (g.edges.countP (fun e => e.2 = v))

/-- `networkx` `G.neighbors(v)` / `G[v]`: the distinct neighbors of `v`,
in first-occurrence order over the edge list. -/
def neighborList (g : MGraph) (v : ℕ) : List ℕ :=
  (g.edges.filterMap (fun e =>
    if e.1 = v then some e.2 else if e.2 = v then some e.1 else none)).dedup

/-- `networkx` `G.remove_node(v)` (also used for `remove_nodes_from([v])`,
which ignores absent nodes): drop `v` and all incident edges. -/
def removeNode (g : MGraph) (v : ℕ) : MGraph where
  nodes := g.nodes.erase v
  edges := g.edges.filter (fun e => ¬(e.1 = v ∨ e.2 = v))
  nodup := g.nodup.erase v
  edges_mem := by
    intro e he
    rw [List.mem_filter] at he
    obtain ⟨he, hcond⟩ := he
    have h12 := g.edges_mem e he
    simp only [decide_not, Bool.not_eq_true', decide_eq_false_iff_not] at hcond
    push_neg at hcond
    constructor
    · exact (List.Nodup.mem_erase_iff g.nodup).2 ⟨hcond.1, h12.1⟩
    · exact (List.Nodup.mem_erase_iff g.nodup).2 ⟨hcond.2, h12.2⟩

/-- Append `x` to the vertex list when absent (how `add_edge` creates
missing endpoints). -/
def insertNode (l : List ℕ) (x : ℕ) : List ℕ :=
  if x ∈ l then l else l ++ [x]

theorem mem_insertNode {l : List ℕ} {x y : ℕ} :
    y ∈ insertNode l x ↔ y ∈ l ∨ y = x := by
  unfold insertNode
  split
  · rename_i hx
    constructor
    · exact Or.inl
    · rintro (h | rfl) <;> assumption
  · simp

theorem insertNode_nodup {l : List ℕ} (h : l.Nodup) (x : ℕ) :
    (insertNode l x).Nodup := by
  unfold insertNode
  split
  · exact h
  · rename_i hx
    simp [List.nodup_append, h, hx]

theorem insertNode_of_mem {l : List ℕ} {x : ℕ} (h : x ∈ l) :
    insertNode l x = l := by
  unfold insertNode; simp [h]

/-- `networkx` `G.add_edge(u, v)` on a MultiGraph: add missing endpoints,
then append one more parallel copy of the edge. -/
def addEdge (g : MGraph) (u v : ℕ) : MGraph where
  nodes := insertNode (insertNode g.nodes u) v
  edges := g.edges ++ [(u, v)]
  nodup := insertNode_nodup (insertNode_nodup g.nodup u) v
  edges_mem := by
    intro e he
    rw [List.mem_append] at he
    rcases he with he | he
    · have h12 := g.edges_mem e he
      exact ⟨mem_insertNode.2 (Or.inl (mem_insertNode.2 (Or.inl h12.1))),
             mem_insertNode.2 (Or.inl (mem_insertNode.2 (Or.inl h12.2)))⟩
    · simp only [List.mem_singleton] at he
      subst he
      exact ⟨mem_insertNode.2 (Or.inl (mem_insertNode.2 (Or.inr rfl))),
             mem_insertNode.2 (Or.inr rfl)⟩

/-- `networkx` `G.subgraph(s)`: subgraph induced on `s`. -/
def subgraph (g : MGraph) (s : Finset ℕ) : MGraph where
  nodes := g.nodes.filter (fun v => v ∈ s)
  edges := g.edges.filter (fun e => e.1 ∈ s ∧ e.2 ∈ s)
  nodup := g.nodup.filter _
  edges_mem := by
    intro e he
    rw [List.mem_filter] at he
    obtain ⟨he, hcond⟩ := he
    have h12 := g.edges_mem e he
    simp only [decide_eq_true_eq] at hcond
    constructor <;> rw [List.mem_filter] <;>
      simp [h12.1, h12.2, hcond.1, hcond.2]

/-- The vertex list as a `Finset`. -/
def nodesFinset (g : MGraph) : Finset ℕ := ⟨(g.nodes : Multiset ℕ), g.nodup⟩

theorem mem_nodesFinset {g : MGraph} {v : ℕ} : v ∈ g.nodesFinset ↔ v ∈ g.nodes :=
  Iff.rfl

end MGraph

/-- Modelled from the spec: `tools.utils.graph_minus` (source file not in
the repository snapshot).  Per §6 of the spec, a "graph-minus copy": the
subgraph induced on the vertices outside `s`, as a fresh graph. -/
def graph_minus (g : MGraph) (s : Finset ℕ) : MGraph where
  nodes := g.nodes.filter (fun v => v ∉ s)
  edges := g.edges.filter (fun e => e.1 ∉ s ∧ e.2 ∉ s)
  nodup := g.nodup.filter _
  edges_mem := by
    intro e he
    rw [List.mem_filter] at he
    obtain ⟨he, hcond⟩ := he
    have h12 := g.edges_mem e he
    simp only [decide_eq_true_eq] at hcond
    constructor <;> rw [List.mem_filter] <;>
      simp [h12.1, h12.2, hcond.1, hcond.2]

/-- One expansion step of reachability inside `g`: add every vertex
adjacent to the current set. -/
def stepSet (g : MGraph) (s : Finset ℕ) : Finset ℕ :=
  s ∪ g.nodesFinset.filter
    (fun u => ∃ e ∈ g.edges, (e.1 = u ∧ e.2 ∈ s) ∨ (e.2 = u ∧ e.1 ∈ s))

/-- The connected component of `v` in `g`, computed by saturating
`stepSet` (|V| iterations always reach the fixpoint). -/
def compOf (g : MGraph) (v : ℕ) : Finset ℕ :=
  (stepSet g)^[g.nodes.length] {v}

/-- Number of edges of `g` with both endpoints inside `s`. -/
def edgesInside (g : MGraph) (s : Finset ℕ) : ℕ :=
  g.edges.countP (fun e => e.1 ∈ s ∧ e.2 ∈ s)

/-- Modelled from the spec: `tools.utils.is_acyclic` (source file not in
the repository snapshot).  Per §4.1 of the spec: true iff every connected
component of `G` satisfies edges = vertices − 1 (a forest), parallel
edges and self-loops counting as cycles. -/
def is_acyclic (g : MGraph) : Bool :=
  g.nodes.all (fun v => edgesInside g (compOf g v) + 1 = (compOf g v).card)

end IC

namespace IC

/-- Result of one reduction rule: the Python functions return
`(k, solx, changed)` and mutate `g` and `h` in place; the embedding
returns the mutated graphs explicitly. -/
structure RedResult where
  k : ℤ
  solx : Option ℕ
  changed : Bool
  g : MGraph
  h : MGraph

/-- The scan of `reduction1` over the snapshot `g.nodes()`: each vertex of
current degree ≤ 1 is removed from `g` (and from `h`, ignoring absence). -/
def red1Go : List ℕ → MGraph → MGraph → Bool → MGraph × MGraph × Bool
  | [], g, h, c => (g, h, c)
  | v :: rest, g, h, c =>
    if g.degree v ≤ 1 then red1Go rest (g.removeNode v) (h.removeNode v) true
    else red1Go rest g h c

/-- `reduction1`: delete all nodes of degree 0 or 1 (the scan tests the
degree in the current graph, and pays no attention to `w`). -/
def reduction1 (g : MGraph) (_w : Finset ℕ) (h : MGraph) (k : ℤ) : RedResult :=
  let r := red1Go g.nodes g h false
  ⟨k, none, r.2.2, r.1, r.2.1⟩

/-- `reduction2`: find the first `v` in `h` such that `G[W ∪ {v}]` has a
cycle; include it in the solution, delete it, decrement `k`. -/
def reduction2 (g : MGraph) (w : Finset ℕ) (h : MGraph) (k : ℤ) : RedResult :=
  match h.nodes.find? (fun v => !(is_acyclic (g.subgraph (insert v w)))) with
  | some v => ⟨k - 1, some v, true, g.removeNode v, h.removeNode v⟩
  | none => ⟨k, none, false, g, h⟩

/-- `reduction3`: find the first `v ∈ H` of degree exactly 2 in `G` with at
least one neighbor in `H`; delete it and join its two neighbors.  The
two-element unpacking `[n1, n2] = g.neighbors(v)` raises `ValueError`
when `v` has a single distinct neighbor (two parallel edges). -/
def reduction3 (g : MGraph) (w : Finset ℕ) (h : MGraph) (k : ℤ) :
    Except String RedResult :=
  match h.nodes.find? (fun v => g.degree v == 2 && decide (1 ≤ (h.neighborList v).length)) with
  | some v =>
    match g.neighborList v with
    | [n1, n2] =>
      let g' := (g.removeNode v).addEdge n1 n2
      let h2 := h.removeNode v
      let h' := if n1 ∉ w ∧ n2 ∉ w then h2.addEdge n1 n2 else h2
      .ok ⟨k, none, true, g', h'⟩
    | _ => .error "ValueError: not enough values to unpack"
  | none => .ok ⟨k, none, false, g, h⟩

theorem two_mem_le_length {α : Type} [DecidableEq α] {l : List α} {a b : α}
    (ha : a ∈ l) (hb : b ∈ l) (hne : a ≠ b) : 2 ≤ l.length := by
  have hb' : b ∈ l.erase a := (List.mem_erase_of_ne (Ne.symm hne)).2 hb
  have h1 : 1 ≤ (l.erase a).length := List.length_pos.2 (List.ne_nil_of_mem hb')
  have h2 : (l.erase a).length = l.length - 1 := List.length_erase_of_mem ha
  omega

theorem mem_neighborList_iff {g : MGraph} {v n : ℕ} :
    n ∈ g.neighborList v ↔
      ∃ e ∈ g.edges, (e.1 = v ∧ e.2 = n) ∨ (e.2 = v ∧ e.1 = n) := by
  unfold MGraph.neighborList
  rw [List.mem_dedup, List.mem_filterMap]
  constructor
  · rintro ⟨e, he, hsome⟩
    refine ⟨e, he, ?_⟩
    by_cases h1 : e.1 = v
    · simp only [h1, if_pos rfl] at hsome
      exact Or.inl ⟨h1, Option.some_injective _ hsome⟩
    · by_cases h2 : e.2 = v
      · simp only [if_neg h1, h2, if_pos rfl] at hsome
        exact Or.inr ⟨h2, Option.some_injective _ hsome⟩
      · simp [h1, h2] at hsome
  · rintro ⟨e, he, ⟨h1, h2⟩ | ⟨h1, h2⟩⟩
    · exact ⟨e, he, by simp [h1, h2]⟩
    · refine ⟨e, he, ?_⟩
      by_cases he1 : e.1 = v
      · have : e.2 = n := by
          cases e; dsimp at *; omega
        simp [he1, this]
      · rw [if_neg he1, if_pos h1]
        exact congrArg some h2

/-- A vertex of degree exactly 2 with two distinct listed neighbors has no
self-loop: both neighbors differ from the vertex, and everything is a
graph vertex. -/
theorem neighborPair_facts {g : MGraph} {v n1 n2 : ℕ}
    (hdeg : g.degree v = 2) (hnl : g.neighborList v = [n1, n2]) :
    v ∈ g.nodes ∧ n1 ≠ n2 ∧ n1 ≠ v ∧ n2 ≠ v ∧ n1 ∈ g.nodes ∧ n2 ∈ g.nodes := by
  have hnd : (g.neighborList v).Nodup := List.nodup_dedup _
  rw [hnl] at hnd
  have hne : n1 ≠ n2 := by simp at hnd; exact hnd
  have h1 : n1 ∈ g.neighborList v := by rw [hnl]; simp
  have h2 : n2 ∈ g.neighborList v := by rw [hnl]; simp
  rw [mem_neighborList_iff] at h1 h2
  obtain ⟨e1, he1, hc1⟩ := h1
  obtain ⟨e2, he2, hc2⟩ := h2
  have hvmem : v ∈ g.nodes := by
    rcases hc1 with ⟨ha, _⟩ | ⟨ha, _⟩
    · exact ha ▸ (g.edges_mem e1 he1).1
    · exact ha ▸ (g.edges_mem e1 he1).2
  have hn1mem : n1 ∈ g.nodes := by
    rcases hc1 with ⟨_, hb⟩ | ⟨_, hb⟩
    · exact hb ▸ (g.edges_mem e1 he1).2
    · exact hb ▸ (g.edges_mem e1 he1).1
  have hn2mem : n2 ∈ g.nodes := by
    rcases hc2 with ⟨_, hb⟩ | ⟨_, hb⟩
    · exact hb ▸ (g.edges_mem e2 he2).2
    · exact hb ▸ (g.edges_mem e2 he2).1
  -- a self-loop at `v` together with a second distinct neighbor forces
  -- degree ≥ 3
  have key : ∀ m : ℕ, m ∈ g.neighborList v → m ≠ v := by
    intro m hm hmv
    subst hmv
    rw [mem_neighborList_iff] at hm
    obtain ⟨e, he, hc⟩ := hm
    have heq : e = (m, m) := by
      rcases hc with ⟨ha, hb⟩ | ⟨ha, hb⟩ <;> (cases e; simp_all)
    subst heq
    -- there is another neighbor ≠ m
    have hother : ∃ n, n ∈ g.neighborList m ∧ n ≠ m := by
      by_cases h : n1 = m
      · exact ⟨n2, by rw [hnl]; simp, by rw [← h]; exact hne.symm⟩
      · exact ⟨n1, by rw [hnl]; simp, h⟩
    obtain ⟨n, hn, hnm⟩ := hother
    rw [mem_neighborList_iff] at hn
    obtain ⟨e', he', hc'⟩ := hn
    have hne' : e' ≠ (m, m) := by
      rcases hc' with ⟨ha, hb⟩ | ⟨ha, hb⟩ <;> (cases e'; simp_all)
    -- count endpoints at m: the loop gives 2, e' gives ≥ 1
    unfold MGraph.degree at hdeg
    rcases hc' with ⟨ha, hb⟩ | ⟨ha, hb⟩
    · have hcount1 : 2 ≤ g.edges.countP (fun e => e.1 = m) := by
        rw [List.countP_eq_length_filter]
        refine two_mem_le_length (a := ((m : ℕ), m)) (b := e') ?_ ?_ (Ne.symm hne')
        · rw [List.mem_filter]; simp [he]
        · rw [List.mem_filter]; simp [he', ha]
      have hcount2 : 1 ≤ g.edges.countP (fun e => e.2 = m) := by
        rw [List.countP_eq_length_filter]
        have : ((m : ℕ), m) ∈ g.edges.filter (fun e => e.2 = m) := by
          rw [List.mem_filter]; simp [he]
        exact List.length_pos.2 (List.ne_nil_of_mem this)
      omega
    · have hcount1 : 2 ≤ g.edges.countP (fun e => e.2 = m) := by
        rw [List.countP_eq_length_filter]
        refine two_mem_le_length (a := ((m : ℕ), m)) (b := e') ?_ ?_ (Ne.symm hne')
        · rw [List.mem_filter]; simp [he]
        · rw [List.mem_filter]; simp [he', ha]
      have hcount2 : 1 ≤ g.edges.countP (fun e => e.1 = m) := by
        rw [List.countP_eq_length_filter]
        have : ((m : ℕ), m) ∈ g.edges.filter (fun e => e.1 = m) := by
          rw [List.mem_filter]; simp [he]
        exact List.length_pos.2 (List.ne_nil_of_mem this)
      omega
  exact ⟨hvmem, hne,
    key n1 (by rw [hnl]; simp), key n2 (by rw [hnl]; simp), hn1mem, hn2mem⟩

end IC

namespace IC

theorem removeNode_nodes_length_le (g : MGraph) (v : ℕ) :
    (g.removeNode v).nodes.length ≤ g.nodes.length :=
  List.length_erase_le _ _

theorem removeNode_nodes_length_lt {g : MGraph} {v : ℕ} (h : v ∈ g.nodes) :
    (g.removeNode v).nodes.length < g.nodes.length := by
  have := List.length_erase_of_mem h
  unfold MGraph.removeNode
  dsimp
  rw [this]
  have : 0 < g.nodes.length := List.length_pos.2 (List.ne_nil_of_mem h)
  omega

theorem insertNode_length_le (l : List ℕ) (x : ℕ) :
    (MGraph.insertNode l x).length ≤ l.length + 1 := by
  unfold MGraph.insertNode
  split <;> simp

theorem addEdge_nodes_length_le (g : MGraph) (u v : ℕ) :
    (g.addEdge u v).nodes.length ≤ g.nodes.length + 2 := by
  unfold MGraph.addEdge
  dsimp
  calc (MGraph.insertNode (MGraph.insertNode g.nodes u) v).length
      ≤ (MGraph.insertNode g.nodes u).length + 1 := insertNode_length_le _ _
    _ ≤ g.nodes.length + 2 := by
        have := insertNode_length_le g.nodes u; omega

theorem addEdge_nodes_of_mem {g : MGraph} {u v : ℕ}
    (hu : u ∈ g.nodes) (hv : v ∈ g.nodes) :
    (g.addEdge u v).nodes = g.nodes := by
  unfold MGraph.addEdge
  dsimp
  rw [MGraph.insertNode_of_mem hu, MGraph.insertNode_of_mem hv]

theorem red1Go_changed_of_c (l : List ℕ) (g h : MGraph) :
    (red1Go l g h true).2.2 = true := by
  induction l generalizing g h with
  | nil => rfl
  | cons v rest ih =>
    unfold red1Go
    split <;> exact ih _ _

theorem red1Go_unchanged {l : List ℕ} {g h : MGraph} {c : Bool}
    (hout : (red1Go l g h c).2.2 = false) : red1Go l g h c = (g, h, c) := by
  induction l generalizing g h with
  | nil => rfl
  | cons v rest ih =>
    unfold red1Go at hout ⊢
    split at hout
    · rw [red1Go_changed_of_c] at hout; cases hout
    · rename_i hdeg
      rw [if_neg hdeg]
      exact ih hout

theorem red1Go_measure (l : List ℕ) (g h : MGraph) (c : Bool)
    (hnd : l.Nodup) (hmem : ∀ u ∈ l, u ∈ g.nodes) :
    (red1Go l g h c).1.nodes.length ≤ g.nodes.length ∧
    (red1Go l g h c).2.1.nodes.length ≤ h.nodes.length ∧
    ((red1Go l g h c).2.2 = true → c = true ∨
      (red1Go l g h c).1.nodes.length < g.nodes.length) := by
  induction l generalizing g h c with
  | nil => exact ⟨le_refl _, le_refl _, fun h' => Or.inl h'⟩
  | cons v rest ih =>
    unfold red1Go
    split
    · rename_i hdeg
      have hv : v ∈ g.nodes := hmem v (List.mem_cons_self _ _)
      have hrest : ∀ u ∈ rest, u ∈ (g.removeNode v).nodes := by
        intro u hu
        have hne : u ≠ v := by
          rintro rfl
          exact (List.nodup_cons.1 hnd).1 hu
        exact (List.Nodup.mem_erase_iff g.nodup).2 ⟨hne, hmem u (List.mem_cons_of_mem _ hu)⟩
      obtain ⟨h1, h2, _⟩ := ih (g.removeNode v) (h.removeNode v) true
        (List.nodup_cons.1 hnd).2 hrest
      refine ⟨?_, ?_, fun _ => Or.inr ?_⟩
      · exact le_trans h1 (le_of_lt (removeNode_nodes_length_lt hv))
      · exact le_trans h2 (removeNode_nodes_length_le h v)
      · exact lt_of_le_of_lt h1 (removeNode_nodes_length_lt hv)
    · exact ih g h c (List.nodup_cons.1 hnd).2
        (fun u hu => hmem u (List.mem_cons_of_mem _ hu))

theorem reduction1_measure (g : MGraph) (w : Finset ℕ) (h : MGraph) (k : ℤ) :
    2 * (reduction1 g w h k).g.nodes.length + (reduction1 g w h k).h.nodes.length
      ≤ 2 * g.nodes.length + h.nodes.length ∧
    ((reduction1 g w h k).changed = true →
      2 * (reduction1 g w h k).g.nodes.length + (reduction1 g w h k).h.nodes.length
        < 2 * g.nodes.length + h.nodes.length) := by
  obtain ⟨h1, h2, h3⟩ := red1Go_measure g.nodes g h false g.nodup (fun _ hu => hu)
  unfold reduction1
  dsimp
  constructor
  · omega
  · intro hch
    rcases h3 hch with hc | hlt
    · cases hc
    · omega

theorem reduction1_unchanged {g : MGraph} {w : Finset ℕ} {h : MGraph} {k : ℤ}
    (hch : (reduction1 g w h k).changed = false) :
    (reduction1 g w h k).g = g ∧ (reduction1 g w h k).h = h ∧
    (reduction1 g w h k).k = k ∧ (reduction1 g w h k).solx = none := by
  unfold reduction1 at hch ⊢
  dsimp at hch ⊢
  have := red1Go_unchanged hch
  rw [this]
  exact ⟨rfl, rfl, rfl, rfl⟩

theorem reduction2_measure (g : MGraph) (w : Finset ℕ) (h : MGraph) (k : ℤ) :
    2 * (reduction2 g w h k).g.nodes.length + (reduction2 g w h k).h.nodes.length
      ≤ 2 * g.nodes.length + h.nodes.length ∧
    ((reduction2 g w h k).changed = true →
      2 * (reduction2 g w h k).g.nodes.length + (reduction2 g w h k).h.nodes.length
        < 2 * g.nodes.length + h.nodes.length) := by
  unfold reduction2
  cases hf : h.nodes.find? (fun v => !(is_acyclic (g.subgraph (insert v w)))) with
  | none => exact ⟨le_refl _, by intro hc; cases hc⟩
  | some v =>
    have hvh : v ∈ h.nodes := List.mem_of_find?_eq_some hf
    dsimp
    have hg := removeNode_nodes_length_le g v
    have hh := removeNode_nodes_length_lt (g := h) hvh
    exact ⟨by omega, fun _ => by omega⟩

theorem reduction2_unchanged {g : MGraph} {w : Finset ℕ} {h : MGraph} {k : ℤ}
    (hch : (reduction2 g w h k).changed = false) :
    (reduction2 g w h k).g = g ∧ (reduction2 g w h k).h = h ∧
    (reduction2 g w h k).k = k ∧ (reduction2 g w h k).solx = none := by
  unfold reduction2 at hch ⊢
  cases hf : h.nodes.find? (fun v => !(is_acyclic (g.subgraph (insert v w)))) with
  | none => exact ⟨rfl, rfl, rfl, rfl⟩
  | some v => rw [hf] at hch; cases hch

theorem reduction3_measure {g : MGraph} {w : Finset ℕ} {h : MGraph} {k : ℤ}
    {r : RedResult} (hr : reduction3 g w h k = .ok r) :
    2 * r.g.nodes.length + r.h.nodes.length ≤ 2 * g.nodes.length + h.nodes.length ∧
    (r.changed = true →
      2 * r.g.nodes.length + r.h.nodes.length < 2 * g.nodes.length + h.nodes.length) := by
  unfold reduction3 at hr
  cases hf : h.nodes.find?
      (fun v => g.degree v == 2 && decide (1 ≤ (h.neighborList v).length)) with
  | none =>
    rw [hf] at hr
    injection hr with hr
    subst hr
    exact ⟨le_refl _, by intro hc; cases hc⟩
  | some v =>
    rw [hf] at hr
    dsimp only at hr
    have hvh : v ∈ h.nodes := List.mem_of_find?_eq_some hf
    have hpred := List.find?_some hf
    rw [Bool.and_eq_true, beq_iff_eq] at hpred
    have hdeg : g.degree v = 2 := hpred.1
    cases hnl : g.neighborList v with
    | nil => rw [hnl] at hr; cases hr
    | cons n1 tl =>
      cases tl with
      | nil => rw [hnl] at hr; cases hr
      | cons n2 tl2 =>
        cases tl2 with
        | cons n3 tl3 => rw [hnl] at hr; cases hr
        | nil =>
          rw [hnl] at hr
          injection hr with hr
          subst hr
          obtain ⟨hvg, hne, hn1v, hn2v, hn1g, hn2g⟩ := neighborPair_facts hdeg hnl
          dsimp
          -- the new g: remove v (present), re-add no nodes
          have hg' : ((g.removeNode v).addEdge n1 n2).nodes = g.nodes.erase v := by
            rw [addEdge_nodes_of_mem]
            · rfl
            · exact (List.Nodup.mem_erase_iff g.nodup).2 ⟨hn1v, hn1g⟩
            · exact (List.Nodup.mem_erase_iff g.nodup).2 ⟨hn2v, hn2g⟩
          have hglen : ((g.removeNode v).addEdge n1 n2).nodes.length + 1 = g.nodes.length := by
            rw [hg', List.length_erase_of_mem hvg]
            have : 0 < g.nodes.length := List.length_pos.2 (List.ne_nil_of_mem hvg)
            omega
          have hh2 : (h.removeNode v).nodes.length + 1 = h.nodes.length := by
            unfold MGraph.removeNode
            dsimp
            rw [List.length_erase_of_mem hvh]
            have : 0 < h.nodes.length := List.length_pos.2 (List.ne_nil_of_mem hvh)
            omega
          set h2 := h.removeNode v with hh2def
          have hhlen : (if n1 ∉ w ∧ n2 ∉ w then h2.addEdge n1 n2 else h2).nodes.length
              ≤ h2.nodes.length + 2 := by
            split
            · exact addEdge_nodes_length_le h2 n1 n2
            · omega
          constructor
          · omega
          · intro _; omega

theorem reduction3_unchanged {g : MGraph} {w : Finset ℕ} {h : MGraph} {k : ℤ}
    {r : RedResult} (hr : reduction3 g w h k = .ok r) (hch : r.changed = false) :
    r.g = g ∧ r.h = h ∧ r.k = k ∧ r.solx = none := by
  unfold reduction3 at hr
  cases hf : h.nodes.find?
      (fun v => g.degree v == 2 && decide (1 ≤ (h.neighborList v).length)) with
  | none =>
    rw [hf] at hr
    injection hr with hr
    subst hr
    exact ⟨rfl, rfl, rfl, rfl⟩
  | some v =>
    rw [hf] at hr
    dsimp only at hr
    cases hnl : g.neighborList v with
    | nil => rw [hnl] at hr; cases hr
    | cons n1 tl =>
      cases tl with
      | nil => rw [hnl] at hr; cases hr
      | cons n2 tl2 =>
        cases tl2 with
        | cons n3 tl3 => rw [hnl] at hr; cases hr
        | nil =>
          rw [hnl] at hr
          injection hr with hr
          subst hr
          cases hch

end IC

namespace IC

theorem red1Go_sublist (l : List ℕ) (g h : MGraph) (c : Bool) :
    (red1Go l g h c).1.nodes.Sublist g.nodes ∧
    (red1Go l g h c).2.1.nodes.Sublist h.nodes := by
  induction l generalizing g h c with
  | nil => exact ⟨List.Sublist.refl _, List.Sublist.refl _⟩
  | cons v rest ih =>
    unfold red1Go
    split
    · obtain ⟨h1, h2⟩ := ih (g.removeNode v) (h.removeNode v) true
      exact ⟨h1.trans (List.erase_sublist _ _), h2.trans (List.erase_sublist _ _)⟩
    · exact ih g h c

theorem reduction1_sublist (g : MGraph) (w : Finset ℕ) (h : MGraph) (k : ℤ) :
    (reduction1 g w h k).g.nodes.Sublist g.nodes ∧
    (reduction1 g w h k).h.nodes.Sublist h.nodes := by
  unfold reduction1
  exact red1Go_sublist g.nodes g h false

theorem reduction2_sublist (g : MGraph) (w : Finset ℕ) (h : MGraph) (k : ℤ) :
    (reduction2 g w h k).g.nodes.Sublist g.nodes ∧
    (reduction2 g w h k).h.nodes.Sublist h.nodes := by
  unfold reduction2
  cases hf : h.nodes.find? (fun v => !(is_acyclic (g.subgraph (insert v w)))) with
  | none => exact ⟨List.Sublist.refl _, List.Sublist.refl _⟩
  | some v => exact ⟨List.erase_sublist _ _, List.erase_sublist _ _⟩

theorem reduction3_sublist {g : MGraph} {w : Finset ℕ} {h : MGraph} {k : ℤ}
    {r : RedResult} (hr : reduction3 g w h k = .ok r) :
    r.g.nodes.Sublist g.nodes := by
  unfold reduction3 at hr
  cases hf : h.nodes.find?
      (fun v => g.degree v == 2 && decide (1 ≤ (h.neighborList v).length)) with
  | none =>
    rw [hf] at hr
    injection hr with hr
    subst hr
    exact List.Sublist.refl _
  | some v =>
    rw [hf] at hr
    dsimp only at hr
    have hpred := List.find?_some hf
    rw [Bool.and_eq_true, beq_iff_eq] at hpred
    have hdeg : g.degree v = 2 := hpred.1
    cases hnl : g.neighborList v with
    | nil => rw [hnl] at hr; cases hr
    | cons n1 tl =>
      cases tl with
      | nil => rw [hnl] at hr; cases hr
      | cons n2 tl2 =>
        cases tl2 with
        | cons n3 tl3 => rw [hnl] at hr; cases hr
        | nil =>
          rw [hnl] at hr
          injection hr with hr
          subst hr
          obtain ⟨hvg, hne, hn1v, hn2v, hn1g, hn2g⟩ := neighborPair_facts hdeg hnl
          dsimp
          rw [addEdge_nodes_of_mem
            ((List.Nodup.mem_erase_iff g.nodup).2 ⟨hn1v, hn1g⟩)
            ((List.Nodup.mem_erase_iff g.nodup).2 ⟨hn2v, hn2g⟩)]
          exact List.erase_sublist _ _

/-- One iteration of the `while True` loop of `apply_reductions`: run the
three rules in order on the current state, accumulate each `solx` into
`x`, and OR together the three `changed` flags (stored in the returned
record's `changed` field). -/
def redPass (g : MGraph) (w : Finset ℕ) (h : MGraph) (k : ℤ) (x : Finset ℕ) :
    Except String (RedResult × Finset ℕ) :=
  let r1 := reduction1 g w h k
  let x1 := match r1.solx with | some v => insert v x | none => x
  let r2 := reduction2 r1.g w r1.h r1.k
  let x2 := match r2.solx with | some v => insert v x1 | none => x1
  match reduction3 r2.g w r2.h r2.k with
  | .error e => .error e
  | .ok r3 =>
    let x3 := match r3.solx with | some v => insert v x2 | none => x2
    .ok (⟨r3.k, r3.solx, r1.changed || r2.changed || r3.changed, r3.g, r3.h⟩, x3)

theorem redPass_measure {g : MGraph} {w : Finset ℕ} {h : MGraph} {k : ℤ}
    {x : Finset ℕ} {r : RedResult} {x3 : Finset ℕ}
    (hr : redPass g w h k x = .ok (r, x3)) :
    2 * r.g.nodes.length + r.h.nodes.length ≤ 2 * g.nodes.length + h.nodes.length ∧
    (r.changed = true →
      2 * r.g.nodes.length + r.h.nodes.length < 2 * g.nodes.length + h.nodes.length) := by
  unfold redPass at hr
  dsimp only at hr
  cases hr3 : reduction3 (reduction2 (reduction1 g w h k).g w (reduction1 g w h k).h
      (reduction1 g w h k).k).g w
      (reduction2 (reduction1 g w h k).g w (reduction1 g w h k).h (reduction1 g w h k).k).h
      (reduction2 (reduction1 g w h k).g w (reduction1 g w h k).h (reduction1 g w h k).k).k with
  | error e => rw [hr3] at hr; cases hr
  | ok r3 =>
    rw [hr3] at hr
    dsimp only at hr
    injection hr with hr
    injection hr with hra hrb
    subst hra
    dsimp only
    have m1 := reduction1_measure g w h k
    have m2 := reduction2_measure (reduction1 g w h k).g w
      (reduction1 g w h k).h (reduction1 g w h k).k
    have m3 := reduction3_measure hr3
    constructor
    · omega
    · intro hch
      rw [Bool.or_eq_true, Bool.or_eq_true] at hch
      rcases hch with (h1 | h2) | h3
      · have := m1.2 h1; omega
      · have := m2.2 h2; omega
      · have := m3.2 h3; omega

/-- The `while True` loop of `apply_reductions`: repeat `redPass` while
any rule reports a change.  Structural recursion on a fuel bounded by the
termination measure `2|V(g)| + |V(h)|`; `applyReductionsGo_eq` below
proves the source's recurrence for the fuelled wrapper, and the fuel
branch is never reached when the wrapper supplies it. -/
def applyReductionsF : ℕ → MGraph → Finset ℕ → MGraph → ℤ → Finset ℕ →
    Except String (ℤ × Finset ℕ × MGraph × MGraph)
  | 0, _, _, _, _, _ => .error "fuel exhausted"
  | n + 1, g, w, h, k, x =>
    match redPass g w h k x with
    | .error e => .error e
    | .ok (r, x3) =>
      if r.changed then applyReductionsF n r.g w r.h r.k x3
      else .ok (r.k, x3, r.g, r.h)

theorem applyReductionsF_congr : ∀ {n m : ℕ} (g : MGraph) (w : Finset ℕ)
    (h : MGraph) (k : ℤ) (x : Finset ℕ),
    2 * g.nodes.length + h.nodes.length < n →
    2 * g.nodes.length + h.nodes.length < m →
    applyReductionsF n g w h k x = applyReductionsF m g w h k x := by
  intro n
  induction n using Nat.strong_induction_on with
  | _ n ih =>
    intro m g w h k x hn hm
    match n, hn with
    | n' + 1, hn =>
    match m, hm with
    | m' + 1, hm =>
    unfold applyReductionsF
    cases hr : redPass g w h k x with
    | error e => rfl
    | ok rx =>
      obtain ⟨r, x3⟩ := rx
      dsimp only
      by_cases hch : r.changed
      · rw [if_pos hch, if_pos hch]
        have hlt := (redPass_measure hr).2 hch
        exact ih n' (Nat.lt_succ_self _) r.g w r.h r.k x3 (by omega) (by omega)
      · rw [if_neg hch, if_neg hch]

/-- The reduction loop at its canonical fuel. -/
def applyReductionsGo (g : MGraph) (w : Finset ℕ) (h : MGraph) (k : ℤ) (x : Finset ℕ) :
    Except String (ℤ × Finset ℕ × MGraph × MGraph) :=
  applyReductionsF (2 * g.nodes.length + h.nodes.length + 1) g w h k x

/-- The defining recurrence of the reduction loop. -/
theorem applyReductionsGo_eq (g : MGraph) (w : Finset ℕ) (h : MGraph) (k : ℤ)
    (x : Finset ℕ) :
    applyReductionsGo g w h k x =
      match redPass g w h k x with
      | .error e => .error e
      | .ok (r, x3) =>
        if r.changed then applyReductionsGo r.g w r.h r.k x3
        else .ok (r.k, x3, r.g, r.h) := by
  unfold applyReductionsGo
  rw [applyReductionsF]
  cases hr : redPass g w h k x with
  | error e => rfl
  | ok rx =>
    obtain ⟨r, x3⟩ := rx
    dsimp only
    by_cases hch : r.changed
    · rw [if_pos hch, if_pos hch]
      have hlt := (redPass_measure hr).2 hch
      exact applyReductionsF_congr r.g w r.h r.k x3 (by omega) (by omega)
    · rw [if_neg hch, if_neg hch]

/-- `apply_reductions`: exhaustively apply the three reductions, returning
the final budget, the accumulated forced set, and the reduced `g` and `h`
(the Python function mutates `g` in place and returns `(k, x)`). -/
def apply_reductions (g : MGraph) (w : Finset ℕ) (k : ℤ) :
    Except String (ℤ × Finset ℕ × MGraph × MGraph) :=
  applyReductionsGo g w (graph_minus g w) k ∅

end IC

namespace IC

theorem reduction3_solx {g : MGraph} {w : Finset ℕ} {h : MGraph} {k : ℤ}
    {r : RedResult} (hr : reduction3 g w h k = .ok r) : r.solx = none := by
  unfold reduction3 at hr
  cases hf : h.nodes.find?
      (fun v => g.degree v == 2 && decide (1 ≤ (h.neighborList v).length)) with
  | none =>
    rw [hf] at hr
    injection hr with hr
    subst hr
    rfl
  | some v =>
    rw [hf] at hr
    dsimp only at hr
    cases hnl : g.neighborList v with
    | nil => rw [hnl] at hr; cases hr
    | cons n1 tl =>
      cases tl with
      | nil => rw [hnl] at hr; cases hr
      | cons n2 tl2 =>
        cases tl2 with
        | cons n3 tl3 => rw [hnl] at hr; cases hr
        | nil =>
          rw [hnl] at hr
          injection hr with hr
          subst hr
          rfl

/-- Inversion principle for one pass of the reduction loop. -/
theorem redPass_inv {g : MGraph} {w : Finset ℕ} {h : MGraph} {k : ℤ} {x : Finset ℕ}
    {r : RedResult} {x' : Finset ℕ} (hr : redPass g w h k x = .ok (r, x')) :
    ∃ r3 : RedResult,
      reduction3 (reduction2 (reduction1 g w h k).g w (reduction1 g w h k).h
          (reduction1 g w h k).k).g w
        (reduction2 (reduction1 g w h k).g w (reduction1 g w h k).h (reduction1 g w h k).k).h
        (reduction2 (reduction1 g w h k).g w (reduction1 g w h k).h (reduction1 g w h k).k).k
        = .ok r3 ∧
      r.g = r3.g ∧ r.h = r3.h ∧ r.k = r3.k ∧
      r.changed = ((reduction1 g w h k).changed ||
        (reduction2 (reduction1 g w h k).g w (reduction1 g w h k).h
          (reduction1 g w h k).k).changed || r3.changed) ∧
      x' = (match (reduction2 (reduction1 g w h k).g w (reduction1 g w h k).h
          (reduction1 g w h k).k).solx with
        | some u => insert u x
        | none => x) := by
  unfold redPass at hr
  dsimp only at hr
  cases hr3 : reduction3 (reduction2 (reduction1 g w h k).g w (reduction1 g w h k).h
      (reduction1 g w h k).k).g w
      (reduction2 (reduction1 g w h k).g w (reduction1 g w h k).h (reduction1 g w h k).k).h
      (reduction2 (reduction1 g w h k).g w (reduction1 g w h k).h (reduction1 g w h k).k).k with
  | error e => rw [hr3] at hr; cases hr
  | ok r3 =>
    rw [hr3] at hr
    dsimp only at hr
    injection hr with hr
    injection hr with hra hrb
    refine ⟨r3, rfl, ?_, ?_, ?_, ?_, ?_⟩
    · rw [← hra]
    · rw [← hra]
    · rw [← hra]
    · rw [← hra]
    · rw [← hrb, reduction3_solx hr3]
      have h1 : (reduction1 g w h k).solx = none := rfl
      rw [h1]

theorem redPass_sublist {g : MGraph} {w : Finset ℕ} {h : MGraph} {k : ℤ}
    {x : Finset ℕ} {r : RedResult} {x' : Finset ℕ}
    (hr : redPass g w h k x = .ok (r, x')) : r.g.nodes.Sublist g.nodes := by
  obtain ⟨r3, hr3, hg, _, _, _, _⟩ := redPass_inv hr
  rw [hg]
  exact ((reduction3_sublist hr3).trans
    (reduction2_sublist _ w _ _).1).trans (reduction1_sublist g w h k).1

theorem applyReductionsF_sublist : ∀ {n : ℕ} {g : MGraph} {w : Finset ℕ}
    {h : MGraph} {k : ℤ} {x : Finset ℕ} {k' : ℤ} {x' : Finset ℕ} {g' h' : MGraph},
    applyReductionsF n g w h k x = .ok (k', x', g', h') →
    g'.nodes.Sublist g.nodes := by
  intro n
  induction n with
  | zero => intro g w h k x k' x' g' h' heq; cases heq
  | succ n ihn =>
    intro g w h k x k' x' g' h' heq
    rw [applyReductionsF] at heq
    cases hr : redPass g w h k x with
    | error e => rw [hr] at heq; cases heq
    | ok rx =>
      obtain ⟨r, x3⟩ := rx
      rw [hr] at heq
      dsimp only at heq
      by_cases hch : r.changed
      · rw [if_pos hch] at heq
        exact (ihn heq).trans (redPass_sublist hr)
      · rw [if_neg hch] at heq
        injection heq with heq
        have hg : g' = r.g := (congrArg (fun t => t.2.2.1) heq).symm
        rw [hg]
        exact redPass_sublist hr

theorem applyReductionsGo_sublist {g : MGraph} {w : Finset ℕ} {h : MGraph} {k : ℤ}
    {x : Finset ℕ} {k' : ℤ} {x' : Finset ℕ} {g' h' : MGraph}
    (heq : applyReductionsGo g w h k x = .ok (k', x', g', h')) :
    g'.nodes.Sublist g.nodes := by
  unfold applyReductionsGo at heq
  exact applyReductionsF_sublist heq

end IC

namespace IC

theorem apply_reductions_sublist {g : MGraph} {w : Finset ℕ} {k : ℤ}
    {k' : ℤ} {x' : Finset ℕ} {g' h' : MGraph}
    (h : apply_reductions g w k = .ok (k', x', g', h')) :
    g'.nodes.Sublist g.nodes := by
  unfold apply_reductions at h
  exact applyReductionsGo_sublist h

/-- Termination measure for `fvs_disjoint`: total vertices plus residual
vertices.  The left branch removes a residual vertex from the graph
(−2), the right branch moves a residual vertex into `w` (−1). -/
def muFD (g : MGraph) (w : Finset ℕ) : ℕ :=
  g.nodes.length + (g.nodes.filter (fun v => v ∉ w)).length

theorem muFD_mono {g g' : MGraph} (w : Finset ℕ)
    (h : g'.nodes.Sublist g.nodes) : muFD g' w ≤ muFD g w :=
  Nat.add_le_add h.length_le (h.filter _).length_le

theorem filter_ne_erase {l : List ℕ} (hl : l.Nodup) (v : ℕ) :
    l.filter (fun u => u ∉ ({v} : Finset ℕ)) = l.erase v := by
  rw [List.Nodup.erase_eq_filter hl]
  congr 1
  ext u
  by_cases h : u = v <;> simp [h]

theorem muFD_left {g : MGraph} {w : Finset ℕ} {v : ℕ}
    (hv : v ∈ g.nodes) (hvw : v ∉ w) :
    muFD (graph_minus g ({v} : Finset ℕ)) w < muFD g w := by
  unfold muFD graph_minus
  dsimp only
  rw [filter_ne_erase g.nodup v]
  have h1 : (g.nodes.erase v).length = g.nodes.length - 1 :=
    List.length_erase_of_mem hv
  have h2 : (g.nodes.erase v).filter (fun u => u ∉ w) =
      (g.nodes.filter (fun u => u ∉ w)).erase v := by
    rw [List.Nodup.erase_eq_filter g.nodup, List.Nodup.erase_eq_filter (g.nodup.filter _)]
    rw [List.filter_filter, List.filter_filter]
    congr 1
    ext u
    exact Bool.and_comm _ _
  rw [h2]
  have hvres : v ∈ g.nodes.filter (fun u => u ∉ w) := by
    rw [List.mem_filter]
    simp [hv, hvw]
  have h3 : ((g.nodes.filter (fun u => u ∉ w)).erase v).length =
      (g.nodes.filter (fun u => u ∉ w)).length - 1 :=
    List.length_erase_of_mem hvres
  have h4 : 0 < g.nodes.length := List.length_pos.2 (List.ne_nil_of_mem hv)
  have h5 : 0 < (g.nodes.filter (fun u => u ∉ w)).length :=
    List.length_pos.2 (List.ne_nil_of_mem hvres)
  omega

theorem muFD_right {g : MGraph} {w : Finset ℕ} {v : ℕ}
    (hv : v ∈ g.nodes) (hvw : v ∉ w) :
    muFD g (insert v w) < muFD g w := by
  unfold muFD
  have h2 : g.nodes.filter (fun u => u ∉ insert v w) =
      (g.nodes.filter (fun u => u ∉ w)).erase v := by
    rw [List.Nodup.erase_eq_filter (g.nodup.filter _), List.filter_filter]
    congr 1
    ext u
    by_cases huv : u = v <;> by_cases huw : u ∈ w <;> simp [huv, huw, hvw]
  rw [h2]
  have hvres : v ∈ g.nodes.filter (fun u => u ∉ w) := by
    rw [List.mem_filter]
    simp [hv, hvw]
  have h3 : ((g.nodes.filter (fun u => u ∉ w)).erase v).length =
      (g.nodes.filter (fun u => u ∉ w)).length - 1 :=
    List.length_erase_of_mem hvres
  have h5 : 0 < (g.nodes.filter (fun u => u ∉ w)).length :=
    List.length_pos.2 (List.ne_nil_of_mem hvres)
  omega

theorem mem_graph_minus {g : MGraph} {s : Finset ℕ} {v : ℕ} :
    v ∈ (graph_minus g s).nodes ↔ v ∈ g.nodes ∧ v ∉ s := by
  unfold graph_minus
  dsimp only
  rw [List.mem_filter]
  simp

/-- The body of `fvs_disjoint` at explicit fuel (structural recursion,
so that closed calls evaluate inside the kernel).  The fuel branch is
never reached when the fuel exceeds the measure `muFD`; see
`fvs_disjoint_eq` for the source's recurrence. -/
def fvsDisjointF : ℕ → MGraph → Finset ℕ → ℤ → Except String (Option (Finset ℕ))
  | 0, _, _, _ => .error "fuel exhausted"
  | n + 1, g, w, k =>
    if is_acyclic (g.subgraph w) = false then .ok none
    else
      match apply_reductions g w k with
      | .error e => .error e
      | .ok (k', x, g', _h') =>
        if k' < 0 then .ok none
        else if g'.nodes.length = 0 then .ok (some x)
        else
          match (graph_minus g' w).nodes.find?
              (fun v => (graph_minus g' w).degree v ≤ 1) with
          | none => .error "AssertionError: There must be at least one node x of degree at most 1"
          | some xv =>
            match fvsDisjointF n (graph_minus g' ({xv} : Finset ℕ)) w (k' - 1) with
            | .error e => .error e
            | .ok (some sl) => .ok (some ((x ∪ sl) ∪ {xv}))
            | .ok none =>
              match fvsDisjointF n g' (insert xv w) k' with
              | .error e => .error e
              | .ok (some sr) => .ok (some (x ∪ sr))
              | .ok none => .ok none

theorem fvsDisjointF_congr : ∀ {n m : ℕ} (g : MGraph) (w : Finset ℕ) (k : ℤ),
    muFD g w < n → muFD g w < m →
    fvsDisjointF n g w k = fvsDisjointF m g w k := by
  intro n
  induction n using Nat.strong_induction_on with
  | _ n ih =>
    intro m g w k hn hm
    match n, hn with
    | n' + 1, hn =>
    match m, hm with
    | m' + 1, hm =>
    unfold fvsDisjointF
    by_cases hac : is_acyclic (g.subgraph w) = false
    · rw [if_pos hac, if_pos hac]
    · rw [if_neg hac, if_neg hac]
      cases hred : apply_reductions g w k with
      | error e => rfl
      | ok t =>
        obtain ⟨k', x, g', h'⟩ := t
        dsimp only
        by_cases hk : k' < 0
        · rw [if_pos hk, if_pos hk]
        · rw [if_neg hk, if_neg hk]
          by_cases hg0 : g'.nodes.length = 0
          · rw [if_pos hg0, if_pos hg0]
          · rw [if_neg hg0, if_neg hg0]
            cases hfind : (graph_minus g' w).nodes.find?
                (fun v => (graph_minus g' w).degree v ≤ 1) with
            | none => rfl
            | some xv =>
              have hsub := apply_reductions_sublist hred
              have hxv := List.mem_of_find?_eq_some hfind
              rw [mem_graph_minus] at hxv
              have hL : muFD (graph_minus g' ({xv} : Finset ℕ)) w < muFD g w :=
                lt_of_lt_of_le (muFD_left hxv.1 hxv.2) (muFD_mono w hsub)
              have hR : muFD g' (insert xv w) < muFD g w :=
                lt_of_lt_of_le (muFD_right hxv.1 hxv.2) (muFD_mono w hsub)
              have ihL : fvsDisjointF n' (graph_minus g' ({xv} : Finset ℕ)) w (k' - 1)
                  = fvsDisjointF m' (graph_minus g' ({xv} : Finset ℕ)) w (k' - 1) :=
                ih n' (Nat.lt_succ_self n') (graph_minus g' ({xv} : Finset ℕ)) w (k' - 1)
                  (by omega) (by omega)
              have ihR : fvsDisjointF n' g' (insert xv w) k'
                  = fvsDisjointF m' g' (insert xv w) k' :=
                ih n' (Nat.lt_succ_self n') g' (insert xv w) k' (by omega) (by omega)
              dsimp only
              rw [ihL, ihR]

/-- `fvs_disjoint`: given `W`, search for an FVS of size ≤ k disjoint from
`W`.  Returns `ok none` for the Python `None`, and `error` when the
Python code would raise (the degree-≤1 assertion, or `ValueError` inside
`reduction3`). -/
def fvs_disjoint (g : MGraph) (w : Finset ℕ) (k : ℤ) :
    Except String (Option (Finset ℕ)) :=
  fvsDisjointF (muFD g w + 1) g w k

/-- The defining recurrence of `fvs_disjoint`, exactly the structure of
the Python source. -/
theorem fvs_disjoint_eq (g : MGraph) (w : Finset ℕ) (k : ℤ) :
    fvs_disjoint g w k =
      (if is_acyclic (g.subgraph w) = false then .ok none
      else
        match apply_reductions g w k with
        | .error e => .error e
        | .ok (k', x, g', _h') =>
          if k' < 0 then .ok none
          else if g'.nodes.length = 0 then .ok (some x)
          else
            match (graph_minus g' w).nodes.find?
                (fun v => (graph_minus g' w).degree v ≤ 1) with
            | none => .error "AssertionError: There must be at least one node x of degree at most 1"
            | some xv =>
              match fvs_disjoint (graph_minus g' ({xv} : Finset ℕ)) w (k' - 1) with
              | .error e => .error e
              | .ok (some sl) => .ok (some ((x ∪ sl) ∪ {xv}))
              | .ok none =>
                match fvs_disjoint g' (insert xv w) k' with
                | .error e => .error e
                | .ok (some sr) => .ok (some (x ∪ sr))
                | .ok none => .ok none) := by
  unfold fvs_disjoint
  rw [fvsDisjointF]
  by_cases hac : is_acyclic (g.subgraph w) = false
  · rw [if_pos hac, if_pos hac]
  · rw [if_neg hac, if_neg hac]
    cases hred : apply_reductions g w k with
    | error e => rfl
    | ok t =>
      obtain ⟨k', x, g', h'⟩ := t
      dsimp only
      by_cases hk : k' < 0
      · rw [if_pos hk, if_pos hk]
      · rw [if_neg hk, if_neg hk]
        by_cases hg0 : g'.nodes.length = 0
        · rw [if_pos hg0, if_pos hg0]
        · rw [if_neg hg0, if_neg hg0]
          cases hfind : (graph_minus g' w).nodes.find?
              (fun v => (graph_minus g' w).degree v ≤ 1) with
          | none => rfl
          | some xv =>
            have hsub := apply_reductions_sublist hred
            have hxv := List.mem_of_find?_eq_some hfind
            rw [mem_graph_minus] at hxv
            have hL : muFD (graph_minus g' ({xv} : Finset ℕ)) w < muFD g w :=
              lt_of_lt_of_le (muFD_left hxv.1 hxv.2) (muFD_mono w hsub)
            have hR : muFD g' (insert xv w) < muFD g w :=
              lt_of_lt_of_le (muFD_right hxv.1 hxv.2) (muFD_mono w hsub)
            have ihL : fvsDisjointF (muFD g w) (graph_minus g' ({xv} : Finset ℕ)) w (k' - 1)
                = fvsDisjointF (muFD (graph_minus g' ({xv} : Finset ℕ)) w + 1)
                    (graph_minus g' ({xv} : Finset ℕ)) w (k' - 1) :=
              fvsDisjointF_congr (graph_minus g' ({xv} : Finset ℕ)) w (k' - 1)
                (by omega) (by omega)
            have ihR : fvsDisjointF (muFD g w) g' (insert xv w) k'
                = fvsDisjointF (muFD g' (insert xv w) + 1) g' (insert xv w) k' :=
              fvsDisjointF_congr g' (insert xv w) k' (by omega) (by omega)
            dsimp only
            rw [ihL, ihR]

end IC

namespace IC

/-- Decidable equality on `Except` results, so that concrete runs of the
embedded functions can be checked by `decide`. -/
instance {ε α : Type} [DecidableEq ε] [DecidableEq α] : DecidableEq (Except ε α)
  | .error e, .error e' => decidable_of_iff (e = e') (by simp)
  | .error _, .ok _ => isFalse (by simp)
  | .ok _, .error _ => isFalse (by simp)
  | .ok a, .ok a' => decidable_of_iff (a = a') (by simp)

/-- Python `range(a, b)` over ints. -/
def intRange (a b : ℤ) : List ℤ :=
  (List.range (b - a).toNat).map (fun n => a + n)

/-- `itertools.combinations(l, i)`: all `i`-element sublists of `l` in
order, lexicographic by position. -/
def combos : List ℕ → ℕ → List (List ℕ)
  | _, 0 => [[]]
  | [], _ + 1 => []
  | a :: rest, i + 1 => (combos rest i).map (fun t => a :: t) ++ combos rest (i + 1)

/-- Python slicing `l[:k]` (negative `k` drops from the end). -/
def pySlice (l : List ℕ) (k : ℤ) : List ℕ :=
  if 0 ≤ k then l.take k.toNat else l.take (l.length - (-k).toNat)

/-- Python indexing `l[i]` (negative `i` counts from the end); `none` is
an `IndexError`. -/
def pyGet (l : List ℕ) (i : ℤ) : Option ℕ :=
  if 0 ≤ i then l[i.toNat]?
  else if (-i).toNat ≤ l.length then l[l.length - (-i).toNat]? else none

/-- The elements of a `Finset ℕ` in increasing order (CPython iterates a
set of small ints in increasing hash = value order).  Insertion sort is
used so that closed calls reduce inside the kernel; it agrees with
`Finset.sort` by uniqueness of sorted permutations. -/
def sortFS (s : Finset ℕ) : List ℕ :=
  Quot.liftOn s.val (fun l => l.insertionSort (fun a b => a ≤ b))
    (fun _ _ hab =>
      List.eq_of_perm_of_sorted
        (((List.perm_insertionSort _ _).trans hab).trans
          (List.perm_insertionSort _ _).symm)
        (List.sorted_insertionSort _ _) (List.sorted_insertionSort _ _))

/-- Inner loop of `ic_compression`: try every combination `xz` of the
current size. -/
def icGoSub (g : MGraph) (z : Finset ℕ) (k i : ℤ) :
    List (List ℕ) → Except String (Option (Finset ℕ))
  | [] => .ok none
  | xz :: rest =>
    match fvs_disjoint (graph_minus g xz.toFinset) (z \ xz.toFinset) (k - i) with
    | .error e => .error e
    | .ok (some x) => .ok (some (x ∪ xz.toFinset))
    | .ok none => icGoSub g z k i rest

/-- Outer loop of `ic_compression` over the guessed intersection size `i`. -/
def icGoI (g : MGraph) (z : Finset ℕ) (k : ℤ) :
    List ℤ → Except String (Option (Finset ℕ))
  | [] => .ok none
  | i :: rest =>
    match icGoSub g z k i (combos (sortFS z) i.toNat) with
    | .error e => .error e
    | .ok (some x) => .ok (some x)
    | .ok none => icGoI g z k rest

/-- `ic_compression`: given an FVS `z` of size `k + 1` (asserted), find an
FVS of size ≤ k, or `none`.  Python set iteration over small ints is
modelled as sorted order. -/
def ic_compression (g : MGraph) (z : Finset ℕ) (k : ℤ) :
    Except String (Option (Finset ℕ)) :=
  if (z.card : ℤ) = k + 1 then icGoI g z k (intRange 0 (k + 1))
  else .error "AssertionError: len(z) == k + 1"

/-- The vertex-incorporation loop of `get_fbvs_max_size`, over the indices
`range(k + 2, len(nodes))`, threading `soln` and `node_set`. -/
def gfmsGo (g : MGraph) (k : ℤ) :
    List ℤ → Finset ℕ → Finset ℕ → Except String (Option (Finset ℕ))
  | [], soln, _ => .ok (some soln)
  | i :: rest, soln, nodeSet =>
    match pyGet g.nodes i with
    | none => .error "IndexError: list index out of range"
    | some vi =>
      let soln1 := insert vi soln
      let ns1 := insert vi nodeSet
      if (soln1.card : ℤ) < k + 1 then gfmsGo g k rest soln1 ns1
      else if (soln1.card : ℤ) = k + 1 then
        if (ns1.card : ℤ) = i + 1 then
          match ic_compression (g.subgraph ns1) soln1 k with
          | .error e => .error e
          | .ok none => .ok none
          | .ok (some ns) =>
            if (ns.card : ℤ) ≤ k then gfmsGo g k rest ns ns1
            else .error "AssertionError: len(soln) <= k"
        else .error "AssertionError: len(node_set) == i + 1"
      else .error "AssertionError: len(soln) == k + 1"

/-- `get_fbvs_max_size`: the bounded (decision) solver.  Returns the first
`k` vertices when `|V| ≤ k + 2`; otherwise runs iterative compression. -/
def get_fbvs_max_size (g : MGraph) (k : ℤ) : Except String (Option (Finset ℕ)) :=
  if (g.nodes.length : ℤ) ≤ k + 2 then .ok (some (pySlice g.nodes k).toFinset)
  else gfmsGo g k (intRange (k + 2) g.nodes.length)
    (pySlice g.nodes k).toFinset
    (pySlice g.nodes (k + 2)).toFinset

/-- The budget scan of `get_fbvs` over `range(1, number_of_nodes)`;
falling off the end is Python's implicit `None`. -/
def getFbvsGo (g : MGraph) : List ℤ → Except String (Option (Finset ℕ))
  | [] => .ok none
  | i :: rest =>
    match get_fbvs_max_size g i with
    | .error e => .error e
    | .ok (some r) => .ok (some r)
    | .ok none => getFbvsGo g rest

/-- `get_fbvs`: the optimization wrapper.  Empty set for an acyclic input,
otherwise scan the budget upward. -/
def get_fbvs (g : MGraph) : Except String (Option (Finset ℕ)) :=
  if is_acyclic g then .ok (some ∅)
  else getFbvsGo g (intRange 1 g.nodes.length)

end IC

namespace IC

/-- Concrete multigraph: vertices inserted in order 2, 0, 1; a parallel
pair of edges 0–1 (a 2-cycle) and an edge 1–2. -/
def exG1 : MGraph := ⟨[2, 0, 1], [(0, 1), (0, 1), (1, 2)], by decide, by decide⟩

/-- Concrete multigraph: path 0–1–2–5, edge 3–0, and a parallel pair of
edges 3–4. -/
def exG2 : MGraph :=
  ⟨[0, 1, 2, 3, 4, 5], [(0, 1), (1, 2), (2, 5), (3, 0), (3, 4), (3, 4)],
   by decide, by decide⟩

/-- Concrete graph with a single vertex 7 and no edges. -/
def exG3 : MGraph := ⟨[7], [], by decide, by decide⟩

/-- Concrete graph: isolated vertex 5 together with a triangle 0–1–2. -/
def exG4 : MGraph := ⟨[5, 0, 1, 2], [(0, 1), (1, 2), (0, 2)], by decide, by decide⟩

/-- Concrete multigraph: two vertices joined by a parallel pair of edges. -/
def exG5 : MGraph := ⟨[0, 1], [(0, 1), (0, 1)], by decide, by decide⟩

/-- Concrete graph: a triangle on 0, 1, 2. -/
def exG6 : MGraph := ⟨[0, 1, 2], [(0, 1), (1, 2), (0, 2)], by decide, by decide⟩

/-- Claim C1: `get_fbvs` is claimed to return a minimum feedback vertex
set.  On `exG1` it returns `{2}` (the base case hands back the first
vertex of the node list), yet removing `{2}` leaves the parallel pair
0–1, a 2-cycle, so the result is not even a feedback vertex set. -/
theorem get_fbvs_returns_non_fvs_on_exG1 :
    get_fbvs exG1 = .ok (some {2}) ∧
    is_acyclic (graph_minus exG1 ({2} : Finset ℕ)) = false := by decide

/-- Claim C2: `get_fbvs_max_size` is claimed to return either a valid FVS
of size ≤ k or `None`.  On `exG1` with k = 1 it returns `{2}`, of size
≤ 1, but removing `{2}` leaves the parallel pair 0–1, so the returned
set is not a feedback vertex set and is also not the `None` signal. -/
theorem get_fbvs_max_size_returns_non_fvs_on_exG1 :
    get_fbvs_max_size exG1 1 = .ok (some {2}) ∧
    ({2} : Finset ℕ).card ≤ 1 ∧
    is_acyclic (graph_minus exG1 ({2} : Finset ℕ)) = false := by decide

/-- Claim C4: success of the bounded solver at budget `k` is claimed to
imply success at `k + 1`.  On `exG2`, budget 2 succeeds with `{5, 3}`,
but budget 3 raises `ValueError` inside `reduction3` (the two-element
neighbor unpacking meets the parallel pair 3–4), so no solution is
returned at the larger budget. -/
theorem get_fbvs_max_size_not_monotone_on_exG2 :
    get_fbvs_max_size exG2 2 = .ok (some {5, 3}) ∧
    get_fbvs_max_size exG2 3 = .error "ValueError: not enough values to unpack" := by
  decide

/-- Claim C5 (counterexample): with `|V| ≤ k + 2` the solver is claimed to
return exactly `k` vertices; on the one-vertex graph `exG3` with k = 2
it returns the single vertex, a set of size 1 ≠ 2. -/
theorem base_case_size_not_k_on_exG3 :
    get_fbvs_max_size exG3 2 = .ok (some {7}) ∧ ({7} : Finset ℕ).card ≠ 2 := by
  decide

/-- Claim C5 (amended): when `|V(G)| ≤ k + 2` and `0 ≤ k`, the bounded
solver returns the set of the first `min k |V|` vertices in node order —
of size exactly `k` whenever `k ≤ |V|`, and of size `|V| < k` otherwise. -/
theorem base_case_returns_min_k_nodes (g : MGraph) (k : ℤ)
    (hk : 0 ≤ k) (hsize : (g.nodes.length : ℤ) ≤ k + 2) :
    ∃ s : Finset ℕ, get_fbvs_max_size g k = .ok (some s) ∧
      s.card = min k.toNat g.nodes.length ∧ ∀ v ∈ s, v ∈ g.nodes := by
  unfold get_fbvs_max_size
  rw [if_pos hsize]
  refine ⟨(pySlice g.nodes k).toFinset, rfl, ?_, ?_⟩
  · unfold pySlice
    rw [if_pos hk]
    have hnd : (g.nodes.take k.toNat).Nodup := g.nodup.sublist (List.take_sublist _ _)
    rw [List.toFinset_card_of_nodup hnd, List.length_take]
  · intro v hv
    rw [List.mem_toFinset] at hv
    unfold pySlice at hv
    rw [if_pos hk] at hv
    exact List.mem_of_mem_take hv

theorem base_case_returns_min_k_nodes_witness :
    (0 : ℤ) ≤ 2 ∧ ((exG3.nodes.length : ℤ) ≤ 2 + 2) ∧
    ∃ s : Finset ℕ, get_fbvs_max_size exG3 2 = .ok (some s) ∧
      s.card = min (2 : ℤ).toNat exG3.nodes.length ∧ ∀ v ∈ s, v ∈ exG3.nodes :=
  ⟨by decide, by decide, base_case_returns_min_k_nodes exG3 2 (by decide) (by decide)⟩

/-- Claim C6 (counterexample): rule 1 is claimed to delete only vertices
of the residual `H = V \ W`.  On `exG4` with `W = {5}` the isolated
vertex 5 — a member of `W`, not of `H` — is deleted from `G` by
`reduction1`. -/
theorem reduction1_removes_w_vertex_on_exG4 :
    (5 : ℕ) ∈ exG4.nodes ∧
    (5 : ℕ) ∉ (graph_minus exG4 ({5} : Finset ℕ)).nodes ∧
    (5 : ℕ) ∉ (reduction1 exG4 ({5} : Finset ℕ)
      (graph_minus exG4 ({5} : Finset ℕ)) 0).g.nodes := by decide

/-- Claim C6 (amended): rule 1 deletes vertices of degree ≤ 1 from `G`
regardless of whether they lie in the protected set `W` (so vertices of
`W` can be deleted); it removes vertices only, and changes neither the
budget `k` nor the forced set (its `solx` is always `none`). -/
theorem reduction1_frame (g : MGraph) (w : Finset ℕ) (h : MGraph) (k : ℤ) :
    (reduction1 g w h k).k = k ∧ (reduction1 g w h k).solx = none ∧
    (reduction1 g w h k).g.nodes.Sublist g.nodes ∧
    (reduction1 g w h k).h.nodes.Sublist h.nodes := by
  refine ⟨rfl, rfl, ?_, ?_⟩
  · exact (reduction1_sublist g w h k).1
  · exact (reduction1_sublist g w h k).2

/-- Claim C8: invoking the compression step with `|Z| ≠ k + 1` fails fast
with an assertion error rather than returning a value. -/
theorem ic_compression_asserts_card (g : MGraph) (z : Finset ℕ) (k : ℤ)
    (hz : (z.card : ℤ) ≠ k + 1) :
    ic_compression g z k = .error "AssertionError: len(z) == k + 1" := by
  unfold ic_compression
  rw [if_neg hz]

theorem ic_compression_asserts_card_witness :
    ((((∅ : Finset ℕ).card : ℤ) ≠ 0 + 1)) ∧
    ic_compression exG6 (∅ : Finset ℕ) 0 = .error "AssertionError: len(z) == k + 1" :=
  ⟨by decide, ic_compression_asserts_card exG6 ∅ 0 (by decide)⟩

/-- Claim C9 (counterexample): the two-element neighbor unpacking in
`reduction3` is claimed never to raise, even on parallel edges to a
single neighbor.  On `exG5` (two vertices joined by a parallel pair)
vertex 0 has degree 2, a residual neighbor, and a single distinct
neighbor, so `reduction3` raises `ValueError`. -/
theorem reduction3_raises_on_exG5 :
    reduction3 exG5 (∅ : Finset ℕ) exG5 0 =
      .error "ValueError: not enough values to unpack" := by rfl

/-- Claim C9 (amended): the unpacking succeeds exactly when the selected
vertex has two distinct neighbors: if every vertex `reduction3` can fire
on (degree 2 in `G`, at least one neighbor in `H`) has two distinct
neighbors in `G`, then `reduction3` returns without raising; with two
parallel edges to a single neighbor it raises `ValueError`. -/
theorem reduction3_ok_of_two_neighbors (g : MGraph) (w : Finset ℕ)
    (h : MGraph) (k : ℤ)
    (hyp : ∀ v ∈ h.nodes, g.degree v = 2 → 1 ≤ (h.neighborList v).length →
      (g.neighborList v).length = 2) :
    ∃ r, reduction3 g w h k = .ok r := by
  unfold reduction3
  cases hf : h.nodes.find?
      (fun v => g.degree v == 2 && decide (1 ≤ (h.neighborList v).length)) with
  | none => exact ⟨_, rfl⟩
  | some v =>
    dsimp only
    have hvh : v ∈ h.nodes := List.mem_of_find?_eq_some hf
    have hpred := List.find?_some hf
    rw [Bool.and_eq_true, beq_iff_eq, decide_eq_true_eq] at hpred
    have hlen := hyp v hvh hpred.1 hpred.2
    cases hnl : g.neighborList v with
    | nil =>
      rw [hnl] at hlen
      simp only [List.length_nil] at hlen
      omega
    | cons n1 tl =>
      cases tl with
      | nil =>
        rw [hnl] at hlen
        simp only [List.length_cons, List.length_nil] at hlen
        omega
      | cons n2 tl2 =>
        cases tl2 with
        | cons n3 tl3 =>
          rw [hnl] at hlen
          simp only [List.length_cons] at hlen
          omega
        | nil => exact ⟨_, rfl⟩

theorem reduction3_ok_of_two_neighbors_witness :
    (∀ v ∈ exG6.nodes, exG6.degree v = 2 → 1 ≤ (exG6.neighborList v).length →
      (exG6.neighborList v).length = 2) ∧
    ∃ r, reduction3 exG6 (∅ : Finset ℕ) exG6 0 = .ok r :=
  ⟨by decide, reduction3_ok_of_two_neighbors exG6 ∅ exG6 0 (by decide)⟩

end IC

namespace IC

/-- Adjacency in `g`: some edge joins `u` and `v` (in either stored
orientation). -/
def Adj (g : MGraph) (u v : ℕ) : Prop :=
  ∃ e ∈ g.edges, (e.1 = u ∧ e.2 = v) ∨ (e.1 = v ∧ e.2 = u)

/-- Connectivity in `g`: the reflexive-transitive closure of adjacency. -/
def Reach (g : MGraph) : ℕ → ℕ → Prop :=
  Relation.ReflTransGen (Adj g)

theorem Adj.symm2 {g : MGraph} {u v : ℕ} (h : Adj g u v) : Adj g v u := by
  obtain ⟨e, he, hc⟩ := h
  exact ⟨e, he, hc.symm⟩

theorem Adj.mem_left {g : MGraph} {u v : ℕ} (h : Adj g u v) : u ∈ g.nodes := by
  obtain ⟨e, he, hc⟩ := h
  rcases hc with ⟨h1, _⟩ | ⟨_, h2⟩
  · exact h1 ▸ (g.edges_mem e he).1
  · exact h2 ▸ (g.edges_mem e he).2

theorem Adj.mem_right {g : MGraph} {u v : ℕ} (h : Adj g u v) : v ∈ g.nodes :=
  h.symm2.mem_left

theorem Reach.symm_reach {g : MGraph} {u v : ℕ} (h : Reach g u v) : Reach g v u :=
  Relation.ReflTransGen.symmetric (fun _ _ hadj => hadj.symm2) h

theorem Reach.mem_of_ne {g : MGraph} {u v : ℕ} (h : Reach g u v) (hne : u ≠ v) :
    v ∈ g.nodes := by
  induction h with
  | refl => exact absurd rfl hne
  | tail _ hadj _ => exact hadj.mem_right

theorem mem_stepSet {g : MGraph} {s : Finset ℕ} {u : ℕ} :
    u ∈ stepSet g s ↔ u ∈ s ∨ (u ∈ g.nodes ∧ ∃ x ∈ s, Adj g x u) := by
  unfold stepSet
  rw [Finset.mem_union, Finset.mem_filter, MGraph.mem_nodesFinset]
  constructor
  · rintro (h | ⟨hu, e, he, hc⟩)
    · exact Or.inl h
    · refine Or.inr ⟨hu, ?_⟩
      rcases hc with ⟨h1, h2⟩ | ⟨h1, h2⟩
      · exact ⟨e.2, h2, ⟨e, he, Or.inr ⟨h1, rfl⟩⟩⟩
      · exact ⟨e.1, h2, ⟨e, he, Or.inl ⟨rfl, h1⟩⟩⟩
  · rintro (h | ⟨hu, x, hx, e, he, hc⟩)
    · exact Or.inl h
    · refine Or.inr ⟨hu, e, he, ?_⟩
      rcases hc with ⟨h1, h2⟩ | ⟨h1, h2⟩
      · refine Or.inr ⟨h2, ?_⟩
        rw [h1]; exact hx
      · refine Or.inl ⟨h1, ?_⟩
        rw [h2]; exact hx

theorem subset_stepSet (g : MGraph) (s : Finset ℕ) : s ⊆ stepSet g s :=
  Finset.subset_union_left

theorem stepSet_subset_nodes {g : MGraph} {s : Finset ℕ}
    (hs : s ⊆ g.nodesFinset) : stepSet g s ⊆ g.nodesFinset := by
  intro u hu
  rw [mem_stepSet] at hu
  rcases hu with hu | ⟨hu, _⟩
  · exact hs hu
  · exact hu

theorem iter_stepSet_mono (g : MGraph) (s : Finset ℕ) {k m : ℕ} (h : k ≤ m) :
    (stepSet g)^[k] s ⊆ (stepSet g)^[m] s := by
  induction m with
  | zero => rw [Nat.le_zero] at h; subst h; exact subset_refl _
  | succ m ih =>
    by_cases hk : k ≤ m
    · rw [Function.iterate_succ_apply']
      exact (ih hk).trans (subset_stepSet _ _)
    · have : k = m + 1 := by omega
      subst this
      exact subset_refl _

theorem iter_stepSet_subset_nodes (g : MGraph) {s : Finset ℕ}
    (hs : s ⊆ g.nodesFinset) (k : ℕ) : (stepSet g)^[k] s ⊆ g.nodesFinset := by
  induction k with
  | zero => exact hs
  | succ k ih =>
    rw [Function.iterate_succ_apply']
    exact stepSet_subset_nodes ih

theorem iter_stepSet_stable (g : MGraph) (s : Finset ℕ) {k : ℕ}
    (h : (stepSet g)^[k + 1] s = (stepSet g)^[k] s) :
    ∀ m, k ≤ m → (stepSet g)^[m] s = (stepSet g)^[k] s := by
  intro m hm
  induction m with
  | zero => rw [Nat.le_zero] at hm; subst hm; rfl
  | succ m ih =>
    by_cases hk : k ≤ m
    · have hstep := ih hk
      rw [Function.iterate_succ_apply', hstep]
      exact ((Function.iterate_succ_apply' (stepSet g) k s).symm).trans h
    · have : k = m + 1 := by omega
      subst this
      rfl

theorem compOf_fixed {g : MGraph} {v : ℕ} (hv : v ∈ g.nodes) :
    stepSet g (compOf g v) = compOf g v := by
  set n := g.nodes.length with hn
  have hcard : g.nodesFinset.card = n := rfl
  have hsub0 : ({v} : Finset ℕ) ⊆ g.nodesFinset := by
    intro u hu
    rw [Finset.mem_singleton] at hu
    subst hu
    exact hv
  -- some step before n is already a fixpoint
  have hex : ∃ k, k < n ∧ (stepSet g)^[k + 1] {v} = (stepSet g)^[k] {v} := by
    by_contra hcon
    push_neg at hcon
    have hgrow : ∀ k, k ≤ n → k + 1 ≤ ((stepSet g)^[k] {v}).card := by
      intro k
      induction k with
      | zero => intro _; simp
      | succ k ih =>
        intro hk
        have hklt : k < n := Nat.lt_of_succ_le hk
        have h1 := ih (le_of_lt hklt)
        have hne : (stepSet g)^[k + 1] {v} ≠ (stepSet g)^[k] {v} :=
          hcon k hklt
        have hss : (stepSet g)^[k] {v} ⊂ (stepSet g)^[k + 1] {v} := by
          refine Finset.ssubset_iff_subset_ne.2 ⟨?_, ?_⟩
          · exact iter_stepSet_mono g {v} (Nat.le_succ k)
          · exact fun h => hne h.symm
        have := Finset.card_lt_card hss
        omega
    have h1 := hgrow n (le_refl n)
    have h2 := Finset.card_le_card (iter_stepSet_subset_nodes g hsub0 n)
    rw [hcard] at h2
    omega
  obtain ⟨k, hk, hfix⟩ := hex
  have h1 := iter_stepSet_stable g {v} hfix n (le_of_lt hk)
  have h2 := iter_stepSet_stable g {v} hfix (n + 1) (le_of_lt (Nat.lt_succ_of_lt hk))
  unfold compOf
  rw [← hn, ← Function.iterate_succ_apply' (stepSet g) n, h1, h2]

theorem mem_compOf_sound {g : MGraph} {v u : ℕ} {k : ℕ}
    (h : u ∈ (stepSet g)^[k] {v}) : Reach g v u := by
  induction k generalizing u with
  | zero =>
    rw [Function.iterate_zero_apply, Finset.mem_singleton] at h
    subst h
    exact Relation.ReflTransGen.refl
  | succ k ih =>
    rw [Function.iterate_succ_apply', mem_stepSet] at h
    rcases h with h | ⟨_, x, hx, hadj⟩
    · exact ih h
    · exact Relation.ReflTransGen.tail (ih hx) hadj

theorem mem_compOf_iff {g : MGraph} {v : ℕ} (hv : v ∈ g.nodes) {u : ℕ} :
    u ∈ compOf g v ↔ Reach g v u := by
  constructor
  · exact mem_compOf_sound
  · intro h
    induction h with
    | refl =>
      have : v ∈ ({v} : Finset ℕ) := Finset.mem_singleton_self v
      exact iter_stepSet_mono g {v} (Nat.zero_le _) this
    | tail _ hadj ih =>
      rename_i b c _
      have : c ∈ stepSet g (compOf g v) :=
        mem_stepSet.2 (Or.inr ⟨hadj.mem_right, b, ih, hadj⟩)
      rw [compOf_fixed hv] at this
      exact this

theorem self_mem_compOf {g : MGraph} {v : ℕ} (hv : v ∈ g.nodes) :
    v ∈ compOf g v :=
  (mem_compOf_iff hv).2 Relation.ReflTransGen.refl

theorem compOf_subset_nodes {g : MGraph} (v : ℕ) (hv : v ∈ g.nodes) :
    compOf g v ⊆ g.nodesFinset := by
  have hsub0 : ({v} : Finset ℕ) ⊆ g.nodesFinset := by
    intro u hu
    rw [Finset.mem_singleton] at hu
    subst hu
    exact hv
  exact iter_stepSet_subset_nodes g hsub0 _

theorem compOf_closed {g : MGraph} {v : ℕ} (hv : v ∈ g.nodes) {x u : ℕ}
    (hx : x ∈ compOf g v) (hadj : Adj g x u) : u ∈ compOf g v :=
  (mem_compOf_iff hv).2 (Relation.ReflTransGen.tail ((mem_compOf_iff hv).1 hx) hadj)

theorem compOf_congr_of_reach {g : MGraph} {v u : ℕ} (hv : v ∈ g.nodes)
    (hu : u ∈ g.nodes) (h : Reach g v u) : compOf g v = compOf g u := by
  ext y
  rw [mem_compOf_iff hv, mem_compOf_iff hu]
  exact ⟨fun hy => (h.symm_reach).trans hy, fun hy => h.trans hy⟩

theorem is_acyclic_iff {g : MGraph} :
    is_acyclic g = true ↔
      ∀ v ∈ g.nodes, edgesInside g (compOf g v) + 1 = (compOf g v).card := by
  unfold is_acyclic
  rw [List.all_eq_true]
  constructor
  · intro h v hv
    have := h v hv
    rwa [decide_eq_true_eq] at this
  · intro h v hv
    rw [decide_eq_true_eq]
    exact h v hv

end IC

namespace IC

theorem countP_or_add_and (l : List (ℕ × ℕ)) (p q : ℕ × ℕ → Bool) :
    l.countP (fun a => p a || q a) + l.countP (fun a => p a && q a) =
      l.countP p + l.countP q := by
  induction l with
  | nil => rfl
  | cons a l ih =>
    rw [List.countP_cons, List.countP_cons, List.countP_cons, List.countP_cons]
    cases hp : p a <;> cases hq : q a <;> simp [hp, hq] <;> omega

theorem sum_countP_endpoint (l : List (ℕ × ℕ)) (S : Finset ℕ) (f : ℕ × ℕ → ℕ) :
    (∑ u ∈ S, l.countP (fun e => f e = u)) = l.countP (fun e => f e ∈ S) := by
  induction l with
  | nil => simp
  | cons a l ih =>
    have h1 : ∀ u, (a :: l).countP (fun e => f e = u) =
        l.countP (fun e => f e = u) + if f a = u then 1 else 0 := by
      intro u
      rw [List.countP_cons]
      congr 1
      by_cases h : f a = u <;> simp [h]
    have h2 : (a :: l).countP (fun e => f e ∈ S) =
        l.countP (fun e => f e ∈ S) + if f a ∈ S then 1 else 0 := by
      rw [List.countP_cons]
      congr 1
      by_cases h : f a ∈ S <;> simp [h]
    calc (∑ u ∈ S, (a :: l).countP (fun e => f e = u))
        = (∑ u ∈ S, (l.countP (fun e => f e = u) + if f a = u then 1 else 0)) := by
          refine Finset.sum_congr rfl ?_
          intro u _
          exact h1 u
      _ = (∑ u ∈ S, l.countP (fun e => f e = u)) +
            (∑ u ∈ S, if f a = u then 1 else 0) := Finset.sum_add_distrib
      _ = l.countP (fun e => f e ∈ S) + if f a ∈ S then 1 else 0 := by
          rw [ih]
          congr 1
          rw [Finset.sum_ite_eq S (f a) (fun _ => 1)]
      _ = (a :: l).countP (fun e => f e ∈ S) := h2.symm

theorem countP_congr_mem (l : List (ℕ × ℕ)) (p q : ℕ × ℕ → Bool)
    (h : ∀ e ∈ l, p e = q e) : l.countP p = l.countP q := by
  induction l with
  | nil => rfl
  | cons a l ih =>
    rw [List.countP_cons, List.countP_cons,
      ih (fun e he => h e (List.mem_cons_of_mem a he)),
      h a (List.mem_cons_self a l)]

/-- Handshake identity on an adjacency-closed vertex set: the degrees of
its members sum to twice the number of edges inside it. -/
theorem handshake {g : MGraph} {S : Finset ℕ}
    (hclosed : ∀ e ∈ g.edges, (e.1 ∈ S ↔ e.2 ∈ S)) :
    (∑ u ∈ S, g.degree u) = 2 * edgesInside g S := by
  unfold MGraph.degree edgesInside
  rw [Finset.sum_add_distrib]
  rw [sum_countP_endpoint g.edges S (fun e => e.1),
    sum_countP_endpoint g.edges S (fun e => e.2)]
  have h1 : g.edges.countP (fun e => e.1 ∈ S) =
      g.edges.countP (fun e => e.1 ∈ S ∧ e.2 ∈ S) := by
    refine countP_congr_mem _ _ _ ?_
    intro e he
    have := hclosed e he
    by_cases h : e.1 ∈ S
    · simp [h, this.1 h]
    · simp [h]
  have h2 : g.edges.countP (fun e => e.2 ∈ S) =
      g.edges.countP (fun e => e.1 ∈ S ∧ e.2 ∈ S) := by
    refine countP_congr_mem _ _ _ ?_
    intro e he
    have := hclosed e he
    by_cases h : e.2 ∈ S
    · simp [h, this.2 h]
    · simp [h]
  rw [h1, h2]
  omega

/-- A nonempty acyclic graph has a vertex of degree at most 1 (otherwise
the handshake identity on one component contradicts edges = vertices − 1). -/
theorem exists_leaf {g : MGraph} (hac : is_acyclic g = true)
    (hne : g.nodes ≠ []) : ∃ v ∈ g.nodes, g.degree v ≤ 1 := by
  by_contra hcon
  push_neg at hcon
  obtain ⟨v, hv⟩ := List.exists_mem_of_ne_nil g.nodes hne
  set S := compOf g v with hS
  have hcheck := (is_acyclic_iff.1 hac) v hv
  rw [← hS] at hcheck
  have hclosed : ∀ e ∈ g.edges, (e.1 ∈ S ↔ e.2 ∈ S) := by
    intro e he
    constructor
    · intro h1
      exact compOf_closed hv h1 ⟨e, he, Or.inl ⟨rfl, rfl⟩⟩
    · intro h2
      exact compOf_closed hv h2 ⟨e, he, Or.inr ⟨rfl, rfl⟩⟩
  have hhs := handshake hclosed
  have hdeg : ∀ u ∈ S, 2 ≤ g.degree u := by
    intro u hu
    have humem : u ∈ g.nodes := compOf_subset_nodes v hv hu
    have := hcon u humem
    omega
  have hsum : S.card * 2 ≤ ∑ u ∈ S, g.degree u := by
    have := Finset.card_nsmul_le_sum S (fun u => g.degree u) 2 hdeg
    simpa [smul_eq_mul] using this
  have hvS : v ∈ S := self_mem_compOf hv
  have hcard : 1 ≤ S.card := Finset.card_pos.2 ⟨v, hvS⟩
  omega

end IC

namespace IC

theorem removeNode_of_not_mem {g : MGraph} {v : ℕ} (hv : v ∉ g.nodes) :
    g.removeNode v = g := by
  refine MGraph.ext' ?_ ?_
  · exact List.erase_of_not_mem hv
  · refine List.filter_eq_self.2 ?_
    intro e he
    have hm := g.edges_mem e he
    simp only [decide_not, Bool.not_eq_true', decide_eq_false_iff_not]
    rintro (h1 | h2)
    · exact hv (h1 ▸ hm.1)
    · exact hv (h2 ▸ hm.2)

theorem adj_removeNode_iff {g : MGraph} {v a b : ℕ} :
    Adj (g.removeNode v) a b ↔ Adj g a b ∧ a ≠ v ∧ b ≠ v := by
  constructor
  · rintro ⟨e, he, hc⟩
    unfold MGraph.removeNode at he
    dsimp only at he
    rw [List.mem_filter] at he
    obtain ⟨he, hcond⟩ := he
    simp only [decide_not, Bool.not_eq_true', decide_eq_false_iff_not] at hcond
    push_neg at hcond
    refine ⟨⟨e, he, hc⟩, ?_, ?_⟩
    · rcases hc with ⟨h1, _⟩ | ⟨_, h2⟩
      · exact h1 ▸ hcond.1
      · exact h2 ▸ hcond.2
    · rcases hc with ⟨_, h2⟩ | ⟨h1, _⟩
      · exact h2 ▸ hcond.2
      · exact h1 ▸ hcond.1
  · rintro ⟨⟨e, he, hc⟩, ha, hb⟩
    refine ⟨e, ?_, hc⟩
    unfold MGraph.removeNode
    dsimp only
    rw [List.mem_filter]
    refine ⟨he, ?_⟩
    simp only [decide_not, Bool.not_eq_true', decide_eq_false_iff_not]
    rintro (h1 | h2)
    · rcases hc with ⟨h1', _⟩ | ⟨h1', _⟩
      · exact ha (h1'.symm.trans h1)
      · exact hb (h1'.symm.trans h1)
    · rcases hc with ⟨_, h2'⟩ | ⟨_, h2'⟩
      · exact hb (h2'.symm.trans h2)
      · exact ha (h2'.symm.trans h2)

theorem reach_removeNode_mono {g : MGraph} {v a b : ℕ}
    (h : Reach (g.removeNode v) a b) : Reach g a b :=
  Relation.ReflTransGen.mono (fun _ _ hadj => (adj_removeNode_iff.1 hadj).1) h

theorem not_adj_of_deg_zero {g : MGraph} {v : ℕ} (hdeg : g.degree v = 0)
    (c : ℕ) : ¬Adj g v c := by
  rintro ⟨e, he, hc⟩
  unfold MGraph.degree at hdeg
  rcases hc with ⟨h1, _⟩ | ⟨_, h2⟩
  · have : 0 < g.edges.countP (fun e => e.1 = v) := by
      rw [List.countP_pos]
      exact ⟨e, he, by simp [h1]⟩
    omega
  · have : 0 < g.edges.countP (fun e => e.2 = v) := by
      rw [List.countP_pos]
      exact ⟨e, he, by simp [h2]⟩
    omega

/-- A degree-1 vertex: its unique neighbor, and the fact that exactly one
edge entry is incident to it. -/
theorem deg_one_facts {g : MGraph} {v : ℕ} (hdeg : g.degree v = 1) :
    ∃ u, u ≠ v ∧ Adj g v u ∧ (∀ d, Adj g v d → d = u) ∧
      g.edges.countP (fun e => e.1 = v ∨ e.2 = v) = 1 := by
  unfold MGraph.degree at hdeg
  have hsplit := countP_or_add_and g.edges (fun e => e.1 = v) (fun e => e.2 = v)
  have hand : g.edges.countP (fun e => decide (e.1 = v) && decide (e.2 = v)) ≤
      g.edges.countP (fun e => e.2 = v) := by
    refine List.countP_mono_left ?_
    intro e _ h
    rw [Bool.and_eq_true] at h
    exact h.2
  have hand' : g.edges.countP (fun e => decide (e.1 = v) && decide (e.2 = v)) ≤
      g.edges.countP (fun e => e.1 = v) := by
    refine List.countP_mono_left ?_
    intro e _ h
    rw [Bool.and_eq_true] at h
    exact h.1
  rcases Nat.le_one_iff_eq_zero_or_eq_one.1 (le_of_eq rfl) with _ | _
  all_goals {
    have hcases : (g.edges.countP (fun e => e.1 = v) = 1 ∧
        g.edges.countP (fun e => e.2 = v) = 0) ∨
        (g.edges.countP (fun e => e.1 = v) = 0 ∧
        g.edges.countP (fun e => e.2 = v) = 1) := by omega
    rcases hcases with ⟨hc1, hc2⟩ | ⟨hc1, hc2⟩
    · have hpos : 0 < g.edges.countP (fun e => e.1 = v) := by omega
      rw [List.countP_pos] at hpos
      obtain ⟨e, he, hp⟩ := hpos
      rw [decide_eq_true_eq] at hp
      refine ⟨e.2, ?_, ⟨e, he, Or.inl ⟨hp, rfl⟩⟩, ?_, ?_⟩
      · intro h2
        have : 0 < g.edges.countP (fun e => e.2 = v) := by
          rw [List.countP_pos]
          exact ⟨e, he, by simp [h2]⟩
        omega
      · rintro d ⟨e', he', ⟨h1', h2'⟩ | ⟨h1', h2'⟩⟩
        · by_cases heq : e' = e
          · rw [heq] at h2'; exact h2'.symm
          · exfalso
            have h2le : 2 ≤ (g.edges.filter (fun e => e.1 = v)).length :=
              two_mem_le_length (a := e') (b := e)
                (by rw [List.mem_filter]; simp [he', h1'])
                (by rw [List.mem_filter]; simp [he, hp]) heq
            rw [← List.countP_eq_length_filter] at h2le
            omega
        · exfalso
          have : 0 < g.edges.countP (fun e => e.2 = v) := by
            rw [List.countP_pos]
            exact ⟨e', he', by simp [h2']⟩
          omega
      · have hao : g.edges.countP (fun e => decide (e.1 = v) || decide (e.2 = v)) +
            g.edges.countP (fun e => decide (e.1 = v) && decide (e.2 = v)) =
            g.edges.countP (fun e => e.1 = v) + g.edges.countP (fun e => e.2 = v) :=
          countP_or_add_and _ _ _
        have heq2 : g.edges.countP (fun e => e.1 = v ∨ e.2 = v) =
            g.edges.countP (fun e => decide (e.1 = v) || decide (e.2 = v)) := by
          refine countP_congr_mem _ _ _ ?_
          intro e _
          by_cases ha : e.1 = v <;> by_cases hb : e.2 = v <;> simp [ha, hb]
        omega
    · have hpos : 0 < g.edges.countP (fun e => e.2 = v) := by omega
      rw [List.countP_pos] at hpos
      obtain ⟨e, he, hp⟩ := hpos
      rw [decide_eq_true_eq] at hp
      refine ⟨e.1, ?_, ⟨e, he, Or.inr ⟨rfl, hp⟩⟩, ?_, ?_⟩
      · intro h2
        have : 0 < g.edges.countP (fun e => e.1 = v) := by
          rw [List.countP_pos]
          exact ⟨e, he, by simp [h2]⟩
        omega
      · rintro d ⟨e', he', ⟨h1', h2'⟩ | ⟨h1', h2'⟩⟩
        · exfalso
          have : 0 < g.edges.countP (fun e => e.1 = v) := by
            rw [List.countP_pos]
            exact ⟨e', he', by simp [h1']⟩
          omega
        · by_cases heq : e' = e
          · rw [heq] at h1'; exact h1'.symm
          · exfalso
            have h2le : 2 ≤ (g.edges.filter (fun e => e.2 = v)).length :=
              two_mem_le_length (a := e') (b := e)
                (by rw [List.mem_filter]; simp [he', h2'])
                (by rw [List.mem_filter]; simp [he, hp]) heq
            rw [← List.countP_eq_length_filter] at h2le
            omega
      · have hao : g.edges.countP (fun e => decide (e.1 = v) || decide (e.2 = v)) +
            g.edges.countP (fun e => decide (e.1 = v) && decide (e.2 = v)) =
            g.edges.countP (fun e => e.1 = v) + g.edges.countP (fun e => e.2 = v) :=
          countP_or_add_and _ _ _
        have heq2 : g.edges.countP (fun e => e.1 = v ∨ e.2 = v) =
            g.edges.countP (fun e => decide (e.1 = v) || decide (e.2 = v)) := by
          refine countP_congr_mem _ _ _ ?_
          intro e _
          by_cases ha : e.1 = v <;> by_cases hb : e.2 = v <;> simp [ha, hb]
        omega
  }

end IC

namespace IC

/-- Walk rewriting for a degree-1 vertex: any walk of `g` projects to a
walk of `g` minus `v`, sending `v` to its unique neighbor `u`. -/
theorem reach_proj_leaf {g : MGraph} {v u : ℕ} (hne : u ≠ v)
    (huniq : ∀ d, Adj g v d → d = u) {a b : ℕ} (h : Reach g a b) :
    Reach (g.removeNode v) (if a = v then u else a) (if b = v then u else b) := by
  induction h with
  | refl => exact Relation.ReflTransGen.refl
  | @tail p q hr hadj ih =>
    refine ih.trans ?_
    by_cases hpv : p = v
    · subst hpv
      have hq : q = u := huniq q hadj
      subst hq
      rw [if_pos rfl, if_neg hne]
    · by_cases hqv : q = v
      · subst hqv
        have hp : p = u := huniq p hadj.symm2
        subst hp
        rw [if_neg hpv, if_pos rfl]
      · rw [if_neg hpv, if_neg hqv]
        exact Relation.ReflTransGen.single (adj_removeNode_iff.2 ⟨hadj, hpv, hqv⟩)

/-- Walks avoid a removed vertex of degree ≤ 1: reachability between two
other vertices is unchanged. -/
theorem reach_removeNode_leaf {g : MGraph} {v : ℕ} (hdeg : g.degree v ≤ 1)
    {a b : ℕ} (ha : a ≠ v) (hb : b ≠ v) :
    Reach g a b ↔ Reach (g.removeNode v) a b := by
  constructor
  · intro h
    rcases Nat.le_one_iff_eq_zero_or_eq_one.1 hdeg with h0 | h1
    · clear hb
      induction h with
      | refl => exact Relation.ReflTransGen.refl
      | @tail p q hr hadj ih =>
        have hqv : q ≠ v := by
          rintro rfl
          exact not_adj_of_deg_zero h0 p hadj.symm2
        have hpv : p ≠ v := by
          rintro rfl
          exact not_adj_of_deg_zero h0 q hadj
        exact Relation.ReflTransGen.tail ih
          (adj_removeNode_iff.2 ⟨hadj, hpv, hqv⟩)
    · obtain ⟨u, hu, _, huniq, _⟩ := deg_one_facts h1
      have := reach_proj_leaf hu huniq h
      rw [if_neg ha, if_neg hb] at this
      exact this
  · exact reach_removeNode_mono

theorem compOf_removeNode_leaf {g : MGraph} {v : ℕ} (hdeg : g.degree v ≤ 1)
    {x : ℕ} (hx : x ∈ g.nodes) (hxv : x ≠ v) :
    compOf (g.removeNode v) x = (compOf g x).erase v := by
  have hx' : x ∈ (g.removeNode v).nodes :=
    (List.Nodup.mem_erase_iff g.nodup).2 ⟨hxv, hx⟩
  ext y
  rw [Finset.mem_erase]
  constructor
  · intro hy
    have hyv : y ≠ v := by
      have := compOf_subset_nodes x hx' hy
      rw [MGraph.mem_nodesFinset] at this
      exact ((List.Nodup.mem_erase_iff g.nodup).1 this).1
    have hreach := (mem_compOf_iff hx').1 hy
    exact ⟨hyv, (mem_compOf_iff hx).2 ((reach_removeNode_leaf hdeg hxv hyv).2 hreach)⟩
  · rintro ⟨hyv, hy⟩
    have hreach := (mem_compOf_iff hx).1 hy
    exact (mem_compOf_iff hx').2 ((reach_removeNode_leaf hdeg hxv hyv).1 hreach)

/-- Counting: removing a vertex outside `S` keeps the edges inside `S`. -/
theorem edgesInside_removeNode_not_mem {g : MGraph} {v : ℕ} {S : Finset ℕ}
    (hvS : v ∉ S) : edgesInside (g.removeNode v) S = edgesInside g S := by
  unfold edgesInside MGraph.removeNode
  dsimp only
  rw [List.countP_filter]
  refine countP_congr_mem _ _ _ ?_
  intro e _
  by_cases h1 : e.1 ∈ S <;> by_cases h2 : e.2 ∈ S
  · have hv1 : ¬e.1 = v := fun h => hvS (h ▸ h1)
    have hv2 : ¬e.2 = v := fun h => hvS (h ▸ h2)
    simp [h1, h2, hv1, hv2]
  · simp [h1, h2]
  · simp [h1, h2]
  · simp [h1, h2]

theorem countP_split (l : List (ℕ × ℕ)) (p q : ℕ × ℕ → Bool) :
    l.countP p = l.countP (fun e => p e && q e) + l.countP (fun e => p e && !q e) := by
  induction l with
  | nil => rfl
  | cons a l ih =>
    rw [List.countP_cons, List.countP_cons, List.countP_cons]
    cases hp : p a <;> cases hq : q a <;> simp [hp, hq] <;> omega

/-- Counting: removing `v ∈ S` when all `v`-incident edges stay inside
`S` splits the inside-edge count into the surviving part plus the
incident entries. -/
theorem edgesInside_remove_split {g : MGraph} {v : ℕ} {S : Finset ℕ}
    (hvS : v ∈ S)
    (hincS : ∀ e ∈ g.edges, (e.1 = v ∨ e.2 = v) → (e.1 ∈ S ∧ e.2 ∈ S)) :
    edgesInside g S =
      edgesInside (g.removeNode v) (S.erase v) +
        g.edges.countP (fun e => e.1 = v ∨ e.2 = v) := by
  have hmain : edgesInside g S =
      g.edges.countP (fun e =>
        (decide (e.1 ∈ S) && decide (e.2 ∈ S)) &&
          (decide (e.1 = v) || decide (e.2 = v))) +
      g.edges.countP (fun e =>
        (decide (e.1 ∈ S) && decide (e.2 ∈ S)) &&
          !(decide (e.1 = v) || decide (e.2 = v))) := by
    unfold edgesInside
    have heq : g.edges.countP (fun e => e.1 ∈ S ∧ e.2 ∈ S) =
        g.edges.countP (fun e => decide (e.1 ∈ S) && decide (e.2 ∈ S)) := by
      refine countP_congr_mem _ _ _ ?_
      intro e _
      by_cases ha : e.1 ∈ S <;> by_cases hb : e.2 ∈ S <;> simp [ha, hb]
    rw [heq]
    exact countP_split g.edges _ _
  have hIncident : g.edges.countP (fun e =>
      (decide (e.1 ∈ S) && decide (e.2 ∈ S)) &&
        (decide (e.1 = v) || decide (e.2 = v))) =
      g.edges.countP (fun e => e.1 = v ∨ e.2 = v) := by
    refine countP_congr_mem _ _ _ ?_
    intro e he
    by_cases hi : e.1 = v ∨ e.2 = v
    · have hparts := hincS e he hi
      rcases hi with hi | hi <;>
        simp [hi, hparts.1, hparts.2, hvS]
    · push_neg at hi
      simp [hi.1, hi.2]
  have hRest : g.edges.countP (fun e =>
      (decide (e.1 ∈ S) && decide (e.2 ∈ S)) &&
        !(decide (e.1 = v) || decide (e.2 = v))) =
      edgesInside (g.removeNode v) (S.erase v) := by
    unfold edgesInside MGraph.removeNode
    dsimp only
    rw [List.countP_filter]
    refine countP_congr_mem _ _ _ ?_
    intro e _
    by_cases hi1 : e.1 = v
    · simp [hi1]
    · by_cases hi2 : e.2 = v
      · simp [hi1, hi2]
      · by_cases ha : e.1 ∈ S <;> by_cases hb : e.2 ∈ S <;>
          simp [Finset.mem_erase, hi1, hi2, ha, hb]
  omega

/-- Counting: adding an edge adds one inside edge exactly when both
endpoints are inside. -/
theorem edgesInside_addEdge (g : MGraph) (a b : ℕ) (S : Finset ℕ) :
    edgesInside (g.addEdge a b) S =
      edgesInside g S + (if a ∈ S ∧ b ∈ S then 1 else 0) := by
  unfold edgesInside MGraph.addEdge
  dsimp only
  rw [List.countP_append]
  congr 1
  by_cases ha : a ∈ S <;> by_cases hb : b ∈ S <;>
    simp [List.countP_cons, ha, hb]

end IC

namespace IC

theorem not_reach_into_deg_zero {g : MGraph} {v : ℕ} (hdeg : g.degree v = 0)
    {x : ℕ} (hxv : x ≠ v) : ¬Reach g x v := by
  intro h
  rcases Relation.ReflTransGen.cases_head h.symm_reach with heq | ⟨c, hadj, _⟩
  · exact hxv heq.symm
  · exact not_adj_of_deg_zero hdeg c hadj

theorem compOf_deg_zero {g : MGraph} {v : ℕ} (hdeg : g.degree v = 0)
    (hv : v ∈ g.nodes) : compOf g v = {v} := by
  ext y
  rw [mem_compOf_iff hv, Finset.mem_singleton]
  constructor
  · intro h
    rcases Relation.ReflTransGen.cases_head h with heq | ⟨c, hadj, _⟩
    · exact heq.symm
    · exact absurd hadj (not_adj_of_deg_zero hdeg c)
  · rintro rfl
    exact Relation.ReflTransGen.refl

/-- The component check transfers between `g` and `g` minus a degree-≤1
vertex, at every other vertex. -/
theorem check_transfer_leaf {g : MGraph} {v : ℕ} (hdeg : g.degree v ≤ 1)
    {x : ℕ} (hx : x ∈ g.nodes) (hxv : x ≠ v) :
    (edgesInside (g.removeNode v) (compOf (g.removeNode v) x) + 1 =
      (compOf (g.removeNode v) x).card) ↔
    (edgesInside g (compOf g x) + 1 = (compOf g x).card) := by
  have hcomp := compOf_removeNode_leaf hdeg hx hxv
  by_cases hvS : v ∈ compOf g x
  · -- v lies in the component of x: one incident edge and one vertex go
    rcases Nat.le_one_iff_eq_zero_or_eq_one.1 hdeg with h0 | h1
    · exact absurd ((mem_compOf_iff hx).1 hvS)
        (not_reach_into_deg_zero h0 hxv)
    · obtain ⟨u, hu, hadj, huniq, hcount⟩ := deg_one_facts h1
      have hincS : ∀ e ∈ g.edges, (e.1 = v ∨ e.2 = v) →
          (e.1 ∈ compOf g x ∧ e.2 ∈ compOf g x) := by
        intro e he hi
        rcases hi with hi | hi
        · refine ⟨hi ▸ hvS, ?_⟩
          have : Adj g v e.2 := ⟨e, he, Or.inl ⟨hi, rfl⟩⟩
          exact compOf_closed hx (hi ▸ hvS : e.1 ∈ compOf g x)
            (by rw [hi]; exact this)
        · refine ⟨?_, hi ▸ hvS⟩
          have : Adj g v e.1 := ⟨e, he, Or.inr ⟨rfl, hi⟩⟩
          exact compOf_closed hx (hi ▸ hvS : e.2 ∈ compOf g x)
            (by rw [hi]; exact this)
      have hsplit := edgesInside_remove_split hvS hincS
      rw [hcount] at hsplit
      have hcard : ((compOf g x).erase v).card + 1 = (compOf g x).card :=
        Finset.card_erase_add_one hvS
      rw [hcomp]
      omega
  · rw [hcomp, Finset.erase_eq_of_not_mem hvS,
      edgesInside_removeNode_not_mem hvS]

/-- Removing a vertex of degree ≤ 1 neither creates nor destroys a
cycle. -/
theorem is_acyclic_removeNode_leaf {g : MGraph} {v : ℕ}
    (hdeg : g.degree v ≤ 1) (hv : v ∈ g.nodes) :
    is_acyclic (g.removeNode v) = true ↔ is_acyclic g = true := by
  rw [is_acyclic_iff, is_acyclic_iff]
  constructor
  · intro h x hx
    by_cases hxv : x = v
    · subst hxv
      rcases Nat.le_one_iff_eq_zero_or_eq_one.1 hdeg with h0 | h1
      · rw [compOf_deg_zero h0 hv]
        have hE : edgesInside g {x} = 0 := by
          unfold edgesInside
          rw [List.countP_eq_zero]
          intro e he hp
          rw [decide_eq_true_eq] at hp
          rw [Finset.mem_singleton, Finset.mem_singleton] at hp
          unfold MGraph.degree at h0
          have : 0 < g.edges.countP (fun e => e.1 = x) := by
            rw [List.countP_pos_iff]
            exact ⟨e, he, by simp [hp.1]⟩
          omega
        rw [hE]
        simp
      · obtain ⟨u, hu, hadj, huniq, _⟩ := deg_one_facts h1
        have humem : u ∈ g.nodes := hadj.mem_right
        have hcongr : compOf g x = compOf g u :=
          compOf_congr_of_reach hv humem (Relation.ReflTransGen.single hadj)
        rw [hcongr]
        have hu' : u ∈ (g.removeNode x).nodes :=
          (List.Nodup.mem_erase_iff g.nodup).2 ⟨hu, humem⟩
        exact (check_transfer_leaf hdeg humem hu).1 (h u hu')
    · have hx' : x ∈ (g.removeNode v).nodes :=
        (List.Nodup.mem_erase_iff g.nodup).2 ⟨hxv, hx⟩
      exact (check_transfer_leaf hdeg hx hxv).1 (h x hx')
  · intro h x hx
    have hxg : x ∈ g.nodes := ((List.Nodup.mem_erase_iff g.nodup).1 hx).2
    have hxv : x ≠ v := ((List.Nodup.mem_erase_iff g.nodup).1 hx).1
    exact (check_transfer_leaf hdeg hxg hxv).2 (h x hxg)

end IC

namespace IC

theorem degree_removeNode_le (g : MGraph) (v u : ℕ) :
    (g.removeNode v).degree u ≤ g.degree u := by
  unfold MGraph.degree MGraph.removeNode
  dsimp only
  exact Nat.add_le_add
    ((List.filter_sublist _).countP_le _)
    ((List.filter_sublist _).countP_le _)

theorem removeNode_comm (g : MGraph) (v u : ℕ) :
    (g.removeNode v).removeNode u = (g.removeNode u).removeNode v := by
  refine MGraph.ext' ?_ ?_
  · exact List.erase_comm _ _ _
  · unfold MGraph.removeNode
    dsimp only
    rw [List.filter_filter, List.filter_filter]
    refine List.filter_congr ?_
    intro e _
    exact Bool.and_comm _ _

/-- Iterated leaf removal: the graph can be dismantled by repeatedly
deleting a vertex of degree ≤ 1. -/
inductive Shed : MGraph → Prop
  | nil (g : MGraph) : g.nodes = [] → Shed g
  | cons (g : MGraph) (v : ℕ) : v ∈ g.nodes → g.degree v ≤ 1 →
      Shed (g.removeNode v) → Shed g

theorem shed_of_is_acyclic : ∀ {g : MGraph}, is_acyclic g = true → Shed g := by
  have main : ∀ (n : ℕ) (g : MGraph), g.nodes.length ≤ n →
      is_acyclic g = true → Shed g := by
    intro n
    induction n with
    | zero =>
      intro g hlen _
      refine Shed.nil g ?_
      exact List.length_eq_zero.1 (Nat.le_zero.1 hlen)
    | succ n ih =>
      intro g hlen hac
      by_cases hne : g.nodes = []
      · exact Shed.nil g hne
      · obtain ⟨v, hv, hdeg⟩ := exists_leaf hac hne
        have hlt := removeNode_nodes_length_lt (g := g) hv
        exact Shed.cons g v hv hdeg
          (ih (g.removeNode v) (by omega)
            ((is_acyclic_removeNode_leaf hdeg hv).2 hac))
  exact fun {g} hac => main g.nodes.length g (le_refl _) hac

theorem is_acyclic_of_shed {g : MGraph} (h : Shed g) : is_acyclic g = true := by
  induction h with
  | nil g hnil =>
    rw [is_acyclic_iff]
    intro v hv
    rw [hnil] at hv
    cases hv
  | cons g v hv hdeg _ ih =>
    exact (is_acyclic_removeNode_leaf hdeg hv).1 ih

theorem shed_removeNode {g : MGraph} (h : Shed g) : ∀ v, Shed (g.removeNode v) := by
  induction h with
  | nil g hnil =>
    intro v
    refine Shed.nil _ ?_
    unfold MGraph.removeNode
    dsimp only
    rw [hnil]
    rfl
  | cons g u hu hdeg hsh ih =>
    intro v
    by_cases hvu : v = u
    · subst hvu
      exact hsh
    · refine Shed.cons _ u ?_ ?_ ?_
      · exact (List.Nodup.mem_erase_iff g.nodup).2 ⟨fun h => hvu h.symm, hu⟩
      · exact le_trans (degree_removeNode_le g v u) hdeg
      · rw [removeNode_comm]
        exact ih v

/-- Removing any vertex preserves acyclicity. -/
theorem is_acyclic_removeNode {g : MGraph} (hac : is_acyclic g = true)
    (v : ℕ) : is_acyclic (g.removeNode v) = true :=
  is_acyclic_of_shed (shed_removeNode (shed_of_is_acyclic hac) v)

end IC

namespace IC

theorem adj_iff_mem_neighborList {g : MGraph} {v d : ℕ} :
    Adj g v d ↔ d ∈ g.neighborList v := by
  rw [mem_neighborList_iff]
  constructor
  · rintro ⟨e, he, ⟨h1, h2⟩ | ⟨h1, h2⟩⟩
    · exact ⟨e, he, Or.inl ⟨h1, h2⟩⟩
    · exact ⟨e, he, Or.inr ⟨h2, h1⟩⟩
  · rintro ⟨e, he, ⟨h1, h2⟩ | ⟨h1, h2⟩⟩
    · exact ⟨e, he, Or.inl ⟨h1, h2⟩⟩
    · exact ⟨e, he, Or.inr ⟨h2, h1⟩⟩

theorem adj_addEdge_iff {g : MGraph} {p q a b : ℕ} :
    Adj (g.addEdge p q) a b ↔
      Adj g a b ∨ (a = p ∧ b = q) ∨ (a = q ∧ b = p) := by
  constructor
  · rintro ⟨e, he, hc⟩
    unfold MGraph.addEdge at he
    dsimp only at he
    rw [List.mem_append, List.mem_singleton] at he
    rcases he with he | he
    · exact Or.inl ⟨e, he, hc⟩
    · subst he
      rcases hc with ⟨h1, h2⟩ | ⟨h1, h2⟩
      · exact Or.inr (Or.inl ⟨h1.symm, h2.symm⟩)
      · exact Or.inr (Or.inr ⟨h2.symm, h1.symm⟩)
  · rintro (⟨e, he, hc⟩ | ⟨h1, h2⟩ | ⟨h1, h2⟩)
    · refine ⟨e, ?_, hc⟩
      unfold MGraph.addEdge
      dsimp only
      rw [List.mem_append]
      exact Or.inl he
    · subst h1; subst h2
      refine ⟨(a, b), ?_, Or.inl ⟨rfl, rfl⟩⟩
      unfold MGraph.addEdge
      dsimp only
      rw [List.mem_append, List.mem_singleton]
      exact Or.inr rfl
    · subst h1; subst h2
      refine ⟨(b, a), ?_, Or.inr ⟨rfl, rfl⟩⟩
      unfold MGraph.addEdge
      dsimp only
      rw [List.mem_append, List.mem_singleton]
      exact Or.inr rfl

theorem deg_two_incident_count {g : MGraph} {v n1 n2 : ℕ}
    (hdeg : g.degree v = 2) (hnl : g.neighborList v = [n1, n2]) :
    g.edges.countP (fun e => e.1 = v ∨ e.2 = v) = 2 := by
  obtain ⟨hvg, hne, hn1v, hn2v, _, _⟩ := neighborPair_facts hdeg hnl
  have hand0 : g.edges.countP (fun e => decide (e.1 = v) && decide (e.2 = v)) = 0 := by
    rw [List.countP_eq_zero]
    intro e he hp
    rw [Bool.and_eq_true, decide_eq_true_eq, decide_eq_true_eq] at hp
    have : Adj g v v := ⟨e, he, Or.inl ⟨hp.1, hp.2⟩⟩
    have hm := adj_iff_mem_neighborList.1 this
    rw [hnl] at hm
    rcases List.mem_pair.1 hm with h | h
    · exact hn1v h.symm
    · exact hn2v h.symm
  have hor := countP_or_add_and g.edges (fun e => e.1 = v) (fun e => e.2 = v)
  have heq2 : g.edges.countP (fun e => e.1 = v ∨ e.2 = v) =
      g.edges.countP (fun e => decide (e.1 = v) || decide (e.2 = v)) := by
    refine countP_congr_mem _ _ _ ?_
    intro e _
    by_cases ha : e.1 = v <;> by_cases hb : e.2 = v <;> simp [ha, hb]
  unfold MGraph.degree at hdeg
  omega

/-- Walk rewriting for the degree-2 bypass: a walk in `g` projects to a
walk in the shortcut graph, sending `v` to `n1`. -/
theorem reach_proj_shortcut {g : MGraph} {v n1 n2 : ℕ}
    (hdeg : g.degree v = 2) (hnl : g.neighborList v = [n1, n2])
    {a b : ℕ} (h : Reach g a b) :
    Reach ((g.removeNode v).addEdge n1 n2)
      (if a = v then n1 else a) (if b = v then n1 else b) := by
  obtain ⟨hvg, hne, hn1v, hn2v, _, _⟩ := neighborPair_facts hdeg hnl
  have hadjv : ∀ d, Adj g v d → d = n1 ∨ d = n2 := by
    intro d hd
    have hm := adj_iff_mem_neighborList.1 hd
    rw [hnl] at hm
    exact List.mem_pair.1 hm
  induction h with
  | refl => exact Relation.ReflTransGen.refl
  | @tail p q hr hadj ih =>
    refine ih.trans ?_
    by_cases hpv : p = v
    · subst hpv
      rw [if_pos rfl]
      rcases hadjv q hadj with rfl | rfl
      · rw [if_neg hn1v]
      · rw [if_neg hn2v]
        exact Relation.ReflTransGen.single
          (adj_addEdge_iff.2 (Or.inr (Or.inl ⟨rfl, rfl⟩)))
    · by_cases hqv : q = v
      · subst hqv
        rw [if_neg hpv, if_pos rfl]
        rcases hadjv p hadj.symm2 with rfl | rfl
        · exact Relation.ReflTransGen.refl
        · exact Relation.ReflTransGen.single
            (adj_addEdge_iff.2 (Or.inr (Or.inr ⟨rfl, rfl⟩)))
      · rw [if_neg hpv, if_neg hqv]
        exact Relation.ReflTransGen.single
          (adj_addEdge_iff.2 (Or.inl (adj_removeNode_iff.2 ⟨hadj, hpv, hqv⟩)))

/-- Walks in the shortcut graph map back to walks in `g` (the new edge is
simulated through `v`). -/
theorem reach_shortcut_rev {g : MGraph} {v n1 n2 : ℕ}
    (hdeg : g.degree v = 2) (hnl : g.neighborList v = [n1, n2])
    {a b : ℕ} (h : Reach ((g.removeNode v).addEdge n1 n2) a b) :
    Reach g a b := by
  have h1 : n1 ∈ g.neighborList v := by rw [hnl]; simp
  have h2 : n2 ∈ g.neighborList v := by rw [hnl]; simp
  have hAdj1 : Adj g v n1 := adj_iff_mem_neighborList.2 h1
  have hAdj2 : Adj g v n2 := adj_iff_mem_neighborList.2 h2
  induction h with
  | refl => exact Relation.ReflTransGen.refl
  | @tail p q hr hadj ih =>
    refine ih.trans ?_
    rcases adj_addEdge_iff.1 hadj with hold | ⟨rfl, rfl⟩ | ⟨rfl, rfl⟩
    · exact Relation.ReflTransGen.single (adj_removeNode_iff.1 hold).1
    · exact Relation.ReflTransGen.trans
        (Relation.ReflTransGen.single hAdj1.symm2)
        (Relation.ReflTransGen.single hAdj2)
    · exact Relation.ReflTransGen.trans
        (Relation.ReflTransGen.single hAdj2.symm2)
        (Relation.ReflTransGen.single hAdj1)

theorem shortcut_nodes {g : MGraph} {v n1 n2 : ℕ}
    (hdeg : g.degree v = 2) (hnl : g.neighborList v = [n1, n2]) :
    ((g.removeNode v).addEdge n1 n2).nodes = g.nodes.erase v := by
  obtain ⟨hvg, hne, hn1v, hn2v, hn1g, hn2g⟩ := neighborPair_facts hdeg hnl
  rw [addEdge_nodes_of_mem
    ((List.Nodup.mem_erase_iff g.nodup).2 ⟨hn1v, hn1g⟩)
    ((List.Nodup.mem_erase_iff g.nodup).2 ⟨hn2v, hn2g⟩)]
  rfl

theorem compOf_shortcut {g : MGraph} {v n1 n2 : ℕ}
    (hdeg : g.degree v = 2) (hnl : g.neighborList v = [n1, n2])
    {x : ℕ} (hx : x ∈ g.nodes) (hxv : x ≠ v) :
    compOf ((g.removeNode v).addEdge n1 n2) x = (compOf g x).erase v := by
  set g' := (g.removeNode v).addEdge n1 n2 with hg'
  have hnodes : g'.nodes = g.nodes.erase v := shortcut_nodes hdeg hnl
  have hx' : x ∈ g'.nodes := by
    rw [hnodes]
    exact (List.Nodup.mem_erase_iff g.nodup).2 ⟨hxv, hx⟩
  ext y
  rw [Finset.mem_erase]
  constructor
  · intro hy
    have hyv : y ≠ v := by
      have := compOf_subset_nodes x hx' hy
      rw [MGraph.mem_nodesFinset, hnodes] at this
      exact ((List.Nodup.mem_erase_iff g.nodup).1 this).1
    have hreach := (mem_compOf_iff hx').1 hy
    exact ⟨hyv, (mem_compOf_iff hx).2 (reach_shortcut_rev hdeg hnl hreach)⟩
  · rintro ⟨hyv, hy⟩
    have hreach := (mem_compOf_iff hx).1 hy
    have := reach_proj_shortcut hdeg hnl hreach
    rw [if_neg hxv, if_neg hyv] at this
    exact (mem_compOf_iff hx').2 this

/-- The component check transfers between `g` and the shortcut graph at
every vertex other than `v`. -/
theorem check_transfer_shortcut {g : MGraph} {v n1 n2 : ℕ}
    (hdeg : g.degree v = 2) (hnl : g.neighborList v = [n1, n2])
    {x : ℕ} (hx : x ∈ g.nodes) (hxv : x ≠ v) :
    (edgesInside ((g.removeNode v).addEdge n1 n2)
        (compOf ((g.removeNode v).addEdge n1 n2) x) + 1 =
      (compOf ((g.removeNode v).addEdge n1 n2) x).card) ↔
    (edgesInside g (compOf g x) + 1 = (compOf g x).card) := by
  obtain ⟨hvg, hne, hn1v, hn2v, hn1g, hn2g⟩ := neighborPair_facts hdeg hnl
  have h1 : n1 ∈ g.neighborList v := by rw [hnl]; simp
  have h2 : n2 ∈ g.neighborList v := by rw [hnl]; simp
  have hAdj1 : Adj g v n1 := adj_iff_mem_neighborList.2 h1
  have hAdj2 : Adj g v n2 := adj_iff_mem_neighborList.2 h2
  have hcomp := compOf_shortcut hdeg hnl hx hxv
  rw [hcomp]
  set S := compOf g x with hS
  by_cases hvS : v ∈ S
  · have hn1S : n1 ∈ S := compOf_closed hx hvS hAdj1
    have hn2S : n2 ∈ S := compOf_closed hx hvS hAdj2
    have hincS : ∀ e ∈ g.edges, (e.1 = v ∨ e.2 = v) → (e.1 ∈ S ∧ e.2 ∈ S) := by
      intro e he hi
      rcases hi with hi | hi
      · refine ⟨hi ▸ hvS, ?_⟩
        have : Adj g v e.2 := ⟨e, he, Or.inl ⟨hi, rfl⟩⟩
        exact compOf_closed hx (hi ▸ hvS : e.1 ∈ S) (by rw [hi]; exact this)
      · refine ⟨?_, hi ▸ hvS⟩
        have : Adj g v e.1 := ⟨e, he, Or.inr ⟨rfl, hi⟩⟩
        exact compOf_closed hx (hi ▸ hvS : e.2 ∈ S) (by rw [hi]; exact this)
    have hsplit := edgesInside_remove_split hvS hincS
    rw [deg_two_incident_count hdeg hnl] at hsplit
    have hadd := edgesInside_addEdge (g.removeNode v) n1 n2 (S.erase v)
    have hif : (if n1 ∈ S.erase v ∧ n2 ∈ S.erase v then 1 else 0) = 1 := by
      rw [if_pos ⟨Finset.mem_erase.2 ⟨hn1v, hn1S⟩, Finset.mem_erase.2 ⟨hn2v, hn2S⟩⟩]
    rw [hif] at hadd
    have hcard : (S.erase v).card + 1 = S.card := Finset.card_erase_add_one hvS
    omega
  · have hn1S : n1 ∉ S := by
      intro hmem
      exact hvS (compOf_closed hx hmem hAdj1.symm2)
    have hadd := edgesInside_addEdge (g.removeNode v) n1 n2 (S.erase v)
    rw [Finset.erase_eq_of_not_mem hvS] at hadd ⊢
    have hif : (if n1 ∈ S ∧ n2 ∈ S then 1 else 0) = 0 := by
      rw [if_neg]
      rintro ⟨hc, _⟩
      exact hn1S hc
    rw [hif] at hadd
    rw [hadd, edgesInside_removeNode_not_mem hvS]

/-- The degree-2 bypass preserves acyclicity in both directions. -/
theorem is_acyclic_shortcut {g : MGraph} {v n1 n2 : ℕ}
    (hdeg : g.degree v = 2) (hnl : g.neighborList v = [n1, n2]) :
    is_acyclic ((g.removeNode v).addEdge n1 n2) = true ↔ is_acyclic g = true := by
  obtain ⟨hvg, hne, hn1v, hn2v, hn1g, hn2g⟩ := neighborPair_facts hdeg hnl
  have hAdj1 : Adj g v n1 := adj_iff_mem_neighborList.2 (by rw [hnl]; simp)
  have hnodes := shortcut_nodes hdeg hnl
  rw [is_acyclic_iff, is_acyclic_iff]
  constructor
  · intro h x hx
    by_cases hxv : x = v
    · subst hxv
      have hcongr : compOf g x = compOf g n1 :=
        compOf_congr_of_reach hvg hn1g (Relation.ReflTransGen.single hAdj1)
      rw [hcongr]
      have hn1' : n1 ∈ ((g.removeNode x).addEdge n1 n2).nodes := by
        rw [hnodes]
        exact (List.Nodup.mem_erase_iff g.nodup).2 ⟨hn1v, hn1g⟩
      exact (check_transfer_shortcut hdeg hnl hn1g hn1v).1 (h n1 hn1')
    · have hx' : x ∈ ((g.removeNode v).addEdge n1 n2).nodes := by
        rw [hnodes]
        exact (List.Nodup.mem_erase_iff g.nodup).2 ⟨hxv, hx⟩
      exact (check_transfer_shortcut hdeg hnl hx hxv).1 (h x hx')
  · intro h x hx
    rw [hnodes] at hx
    have hxg : x ∈ g.nodes := ((List.Nodup.mem_erase_iff g.nodup).1 hx).2
    have hxv : x ≠ v := ((List.Nodup.mem_erase_iff g.nodup).1 hx).1
    exact (check_transfer_shortcut hdeg hnl hxg hxv).2 (h x hxg)

end IC

namespace IC

theorem graph_minus_removeNode (g : MGraph) (w : Finset ℕ) (v : ℕ) :
    graph_minus (g.removeNode v) w = (graph_minus g w).removeNode v := by
  refine MGraph.ext' ?_ ?_
  · show (g.nodes.erase v).filter (fun u => u ∉ w) =
      (g.nodes.filter (fun u => u ∉ w)).erase v
    rw [List.Nodup.erase_eq_filter g.nodup,
      List.Nodup.erase_eq_filter (g.nodup.filter _),
      List.filter_filter, List.filter_filter]
    congr 1
    ext u
    exact Bool.and_comm _ _
  · show (g.edges.filter (fun e => ¬(e.1 = v ∨ e.2 = v))).filter
        (fun e => e.1 ∉ w ∧ e.2 ∉ w) =
      (g.edges.filter (fun e => e.1 ∉ w ∧ e.2 ∉ w)).filter
        (fun e => ¬(e.1 = v ∨ e.2 = v))
    rw [List.filter_filter, List.filter_filter]
    congr 1
    ext e
    exact Bool.and_comm _ _

theorem subgraph_removeNode (g : MGraph) (s : Finset ℕ) (v : ℕ) :
    (g.removeNode v).subgraph s = (g.subgraph s).removeNode v := by
  refine MGraph.ext' ?_ ?_
  · show (g.nodes.erase v).filter (fun u => u ∈ s) =
      (g.nodes.filter (fun u => u ∈ s)).erase v
    rw [List.Nodup.erase_eq_filter g.nodup,
      List.Nodup.erase_eq_filter (g.nodup.filter _),
      List.filter_filter, List.filter_filter]
    congr 1
    ext u
    exact Bool.and_comm _ _
  · show (g.edges.filter (fun e => ¬(e.1 = v ∨ e.2 = v))).filter
        (fun e => e.1 ∈ s ∧ e.2 ∈ s) =
      (g.edges.filter (fun e => e.1 ∈ s ∧ e.2 ∈ s)).filter
        (fun e => ¬(e.1 = v ∨ e.2 = v))
    rw [List.filter_filter, List.filter_filter]
    congr 1
    ext e
    exact Bool.and_comm _ _

theorem graph_minus_singleton (g : MGraph) (v : ℕ) :
    graph_minus g ({v} : Finset ℕ) = g.removeNode v := by
  refine MGraph.ext' ?_ ?_
  · exact filter_ne_erase g.nodup v
  · show g.edges.filter (fun e => e.1 ∉ ({v} : Finset ℕ) ∧ e.2 ∉ ({v} : Finset ℕ)) =
      g.edges.filter (fun e => ¬(e.1 = v ∨ e.2 = v))
    refine List.filter_congr ?_
    intro e _
    by_cases h1 : e.1 = v <;> by_cases h2 : e.2 = v <;> simp [h1, h2]

theorem graph_minus_insert (g : MGraph) (w : Finset ℕ) (v : ℕ) :
    graph_minus g (insert v w) = (graph_minus g w).removeNode v := by
  refine MGraph.ext' ?_ ?_
  · show g.nodes.filter (fun u => u ∉ insert v w) =
      (g.nodes.filter (fun u => u ∉ w)).erase v
    rw [List.Nodup.erase_eq_filter (g.nodup.filter _), List.filter_filter]
    congr 1
    ext u
    by_cases huv : u = v <;> by_cases huw : u ∈ w <;> simp [huv, huw]
  · show g.edges.filter (fun e => e.1 ∉ insert v w ∧ e.2 ∉ insert v w) =
      (g.edges.filter (fun e => e.1 ∉ w ∧ e.2 ∉ w)).filter
        (fun e => ¬(e.1 = v ∨ e.2 = v))
    rw [List.filter_filter]
    refine List.filter_congr ?_
    intro e _
    by_cases h1 : e.1 = v <;> by_cases h2 : e.2 = v <;>
      by_cases h3 : e.1 ∈ w <;> by_cases h4 : e.2 ∈ w <;> simp [h1, h2, h3, h4]

theorem subgraph_addEdge_not_mem {g : MGraph} {s : Finset ℕ} {n1 n2 : ℕ}
    (h1 : n1 ∈ g.nodes) (h2 : n2 ∈ g.nodes) (hn : ¬(n1 ∈ s ∧ n2 ∈ s)) :
    (g.addEdge n1 n2).subgraph s = g.subgraph s := by
  refine MGraph.ext' ?_ ?_
  · show (MGraph.insertNode (MGraph.insertNode g.nodes n1) n2).filter
        (fun u => u ∈ s) = g.nodes.filter (fun u => u ∈ s)
    rw [MGraph.insertNode_of_mem h1,
      MGraph.insertNode_of_mem h2]
  · show (g.edges ++ [(n1, n2)]).filter (fun e => e.1 ∈ s ∧ e.2 ∈ s) =
      g.edges.filter (fun e => e.1 ∈ s ∧ e.2 ∈ s)
    rw [List.filter_append]
    have : ([(n1, n2)] : List (ℕ × ℕ)).filter (fun e => e.1 ∈ s ∧ e.2 ∈ s) = [] := by
      simp [hn]
    rw [this, List.append_nil]

theorem graph_minus_addEdge_not_mem {g : MGraph} {w : Finset ℕ} {n1 n2 : ℕ}
    (h1 : n1 ∈ g.nodes) (h2 : n2 ∈ g.nodes) (hw1 : n1 ∉ w) (hw2 : n2 ∉ w) :
    graph_minus (g.addEdge n1 n2) w = (graph_minus g w).addEdge n1 n2 := by
  refine MGraph.ext' ?_ ?_
  · show (MGraph.insertNode (MGraph.insertNode g.nodes n1) n2).filter
        (fun u => u ∉ w) =
      MGraph.insertNode (MGraph.insertNode (g.nodes.filter (fun u => u ∉ w)) n1) n2
    have hm1 : n1 ∈ g.nodes.filter (fun u => u ∉ w) :=
      List.mem_filter.2 ⟨h1, by simp [hw1]⟩
    have hm2 : n2 ∈ g.nodes.filter (fun u => u ∉ w) :=
      List.mem_filter.2 ⟨h2, by simp [hw2]⟩
    rw [MGraph.insertNode_of_mem h1, MGraph.insertNode_of_mem h2,
      MGraph.insertNode_of_mem hm1, MGraph.insertNode_of_mem hm2]
  · show (g.edges ++ [(n1, n2)]).filter (fun e => e.1 ∉ w ∧ e.2 ∉ w) =
      g.edges.filter (fun e => e.1 ∉ w ∧ e.2 ∉ w) ++ [(n1, n2)]
    rw [List.filter_append]
    have : ([(n1, n2)] : List (ℕ × ℕ)).filter (fun e => e.1 ∉ w ∧ e.2 ∉ w) =
        [(n1, n2)] := by
      simp [hw1, hw2]
    rw [this]

theorem graph_minus_addEdge_mem {g : MGraph} {w : Finset ℕ} {n1 n2 : ℕ}
    (h1 : n1 ∈ g.nodes) (h2 : n2 ∈ g.nodes) (hn : ¬(n1 ∉ w ∧ n2 ∉ w)) :
    graph_minus (g.addEdge n1 n2) w = graph_minus g w := by
  refine MGraph.ext' ?_ ?_
  · show (MGraph.insertNode (MGraph.insertNode g.nodes n1) n2).filter
        (fun u => u ∉ w) = g.nodes.filter (fun u => u ∉ w)
    rw [MGraph.insertNode_of_mem h1, MGraph.insertNode_of_mem h2]
  · show (g.edges ++ [(n1, n2)]).filter (fun e => e.1 ∉ w ∧ e.2 ∉ w) =
      g.edges.filter (fun e => e.1 ∉ w ∧ e.2 ∉ w)
    rw [List.filter_append]
    have : ([(n1, n2)] : List (ℕ × ℕ)).filter (fun e => e.1 ∉ w ∧ e.2 ∉ w) = [] := by
      simp only [List.filter_eq_nil_iff]
      intro e he
      rw [List.mem_singleton] at he
      subst he
      rw [Bool.not_eq_true, decide_eq_false_iff_not]
      exact hn
    rw [this, List.append_nil]

end IC

namespace IC

theorem countP_filter_keep {α : Type} (l : List α) (q p : α → Bool)
    (hkeep : ∀ a ∈ l, p a = true → q a = true) :
    (l.filter q).countP p = l.countP p := by
  induction l with
  | nil => rfl
  | cons a l ih =>
    have ih' := ih (fun b hb hp => hkeep b (List.mem_cons_of_mem a hb) hp)
    rw [List.filter_cons]
    by_cases hq : q a = true
    · rw [if_pos hq, List.countP_cons, List.countP_cons, ih']
    · have hp : p a = false := by
        cases hpa : p a
        · rfl
        · exact absurd (hkeep a (List.mem_cons_self a l) hpa) hq
      rw [if_neg hq, ih', List.countP_cons, hp]
      simp

theorem filterMap_filter_keep {α β : Type} (l : List α) (q : α → Bool)
    (f : α → Option β) (hkeep : ∀ a ∈ l, f a ≠ none → q a = true) :
    (l.filter q).filterMap f = l.filterMap f := by
  induction l with
  | nil => rfl
  | cons a l ih =>
    have ih' := ih (fun b hb hf => hkeep b (List.mem_cons_of_mem a hb) hf)
    rw [List.filter_cons]
    by_cases hq : q a = true
    · rw [if_pos hq]
      cases hfa : f a with
      | none => rw [List.filterMap_cons_none hfa, List.filterMap_cons_none hfa, ih']
      | some b => rw [List.filterMap_cons_some hfa, List.filterMap_cons_some hfa, ih']
    · have hfa : f a = none := by
        cases hfa : f a with
        | none => rfl
        | some b =>
          exact absurd (hkeep a (List.mem_cons_self a l)
            (by rw [hfa]; exact fun hc => Option.noConfusion hc)) hq
      rw [if_neg hq, List.filterMap_cons_none hfa, ih']

theorem graph_minus_degree_eq {g : MGraph} {w : Finset ℕ} {v : ℕ}
    (hv : v ∉ w) (hnb : ∀ n ∈ g.neighborList v, n ∉ w) :
    (graph_minus g w).degree v = g.degree v := by
  show (g.edges.filter (fun e => e.1 ∉ w ∧ e.2 ∉ w)).countP (fun e => e.1 = v) +
      (g.edges.filter (fun e => e.1 ∉ w ∧ e.2 ∉ w)).countP (fun e => e.2 = v) =
    g.edges.countP (fun e => e.1 = v) + g.edges.countP (fun e => e.2 = v)
  rw [countP_filter_keep, countP_filter_keep]
  · intro e he hp
    rw [decide_eq_true_eq] at hp
    have hn : e.1 ∈ g.neighborList v := by
      rw [mem_neighborList_iff]
      exact ⟨e, he, Or.inr ⟨hp, rfl⟩⟩
    rw [decide_eq_true_eq]
    exact ⟨hnb e.1 hn, hp ▸ hv⟩
  · intro e he hp
    rw [decide_eq_true_eq] at hp
    have hn : e.2 ∈ g.neighborList v := by
      rw [mem_neighborList_iff]
      exact ⟨e, he, Or.inl ⟨hp, rfl⟩⟩
    rw [decide_eq_true_eq]
    exact ⟨hp ▸ hv, hnb e.2 hn⟩

theorem graph_minus_neighborList_eq {g : MGraph} {w : Finset ℕ} {v : ℕ}
    (hv : v ∉ w) (hnb : ∀ n ∈ g.neighborList v, n ∉ w) :
    (graph_minus g w).neighborList v = g.neighborList v := by
  show ((g.edges.filter (fun e => e.1 ∉ w ∧ e.2 ∉ w)).filterMap (fun e =>
      if e.1 = v then some e.2 else if e.2 = v then some e.1 else none)).dedup =
    (g.edges.filterMap (fun e =>
      if e.1 = v then some e.2 else if e.2 = v then some e.1 else none)).dedup
  rw [filterMap_filter_keep]
  intro e he hf
  by_cases h1 : e.1 = v
  · have hn : e.2 ∈ g.neighborList v := by
      rw [mem_neighborList_iff]
      exact ⟨e, he, Or.inl ⟨h1, rfl⟩⟩
    rw [decide_eq_true_eq]
    exact ⟨h1 ▸ hv, hnb e.2 hn⟩
  · by_cases h2 : e.2 = v
    · have hn : e.1 ∈ g.neighborList v := by
        rw [mem_neighborList_iff]
        exact ⟨e, he, Or.inr ⟨h2, rfl⟩⟩
      rw [decide_eq_true_eq]
      exact ⟨hnb e.1 hn, h2 ▸ hv⟩
    · exact absurd (by rw [if_neg h1, if_neg h2]) hf

theorem neighborList_graph_minus_sub {g : MGraph} {w : Finset ℕ} {v n : ℕ}
    (hmem : n ∈ (graph_minus g w).neighborList v) :
    n ∈ g.neighborList v ∧ n ∉ w := by
  rw [mem_neighborList_iff] at hmem
  obtain ⟨e, he, hc⟩ := hmem
  have he' : e ∈ g.edges.filter (fun e => e.1 ∉ w ∧ e.2 ∉ w) := he
  rw [List.mem_filter] at he'
  obtain ⟨heg, hcond⟩ := he'
  rw [decide_eq_true_eq] at hcond
  constructor
  · rw [mem_neighborList_iff]
    exact ⟨e, heg, hc⟩
  · rcases hc with ⟨h1, h2⟩ | ⟨h1, h2⟩
    · exact h2 ▸ hcond.2
    · exact h2 ▸ hcond.1

end IC

namespace IC

/-- Invariant maintained by the reduction loop when the protected set `w`
is a feedback vertex set: `h` mirrors the residual graph `G − W`, and
both the residual graph and the `W`-induced subgraph are acyclic. -/
def Inv (w : Finset ℕ) (g h : MGraph) : Prop :=
  h = graph_minus g w ∧ is_acyclic (graph_minus g w) = true ∧
    is_acyclic (g.subgraph w) = true

theorem Inv_removeNode {w : Finset ℕ} {g h : MGraph} (hi : Inv w g h) (v : ℕ) :
    Inv w (g.removeNode v) (h.removeNode v) := by
  obtain ⟨hh, hres, hsub⟩ := hi
  refine ⟨?_, ?_, ?_⟩
  · rw [hh, graph_minus_removeNode]
  · rw [graph_minus_removeNode]
    exact is_acyclic_removeNode hres v
  · rw [subgraph_removeNode]
    exact is_acyclic_removeNode hsub v

theorem red1Go_inv {w : Finset ℕ} : ∀ (l : List ℕ) (g h : MGraph) (c : Bool),
    Inv w g h → Inv w (red1Go l g h c).1 (red1Go l g h c).2.1 := by
  intro l
  induction l with
  | nil => intro g h c hi; exact hi
  | cons v rest ih =>
    intro g h c hi
    unfold red1Go
    split
    · exact ih _ _ _ (Inv_removeNode hi v)
    · exact ih _ _ _ hi

theorem reduction1_inv (g : MGraph) (w : Finset ℕ) (h : MGraph) (k : ℤ)
    (hi : Inv w g h) : Inv w (reduction1 g w h k).g (reduction1 g w h k).h := by
  unfold reduction1
  dsimp only
  exact red1Go_inv g.nodes g h false hi

theorem reduction2_inv (g : MGraph) (w : Finset ℕ) (h : MGraph) (k : ℤ)
    (hi : Inv w g h) : Inv w (reduction2 g w h k).g (reduction2 g w h k).h := by
  unfold reduction2
  cases hf : h.nodes.find? (fun v => !(is_acyclic (g.subgraph (insert v w)))) with
  | none => exact hi
  | some v => exact Inv_removeNode hi v

theorem reduction3_inv {g : MGraph} {w : Finset ℕ} {h : MGraph} {k : ℤ}
    {r : RedResult} (hr : reduction3 g w h k = .ok r) (hi : Inv w g h) :
    Inv w r.g r.h := by
  unfold reduction3 at hr
  cases hf : h.nodes.find?
      (fun v => g.degree v == 2 && decide (1 ≤ (h.neighborList v).length)) with
  | none =>
    rw [hf] at hr
    injection hr with hr
    subst hr
    exact hi
  | some v =>
    rw [hf] at hr
    dsimp only at hr
    cases hnl : g.neighborList v with
    | nil => rw [hnl] at hr; cases hr
    | cons n1 tl =>
      cases tl with
      | nil => rw [hnl] at hr; cases hr
      | cons n2 tl2 =>
        cases tl2 with
        | cons n3 tl3 => rw [hnl] at hr; cases hr
        | nil =>
          rw [hnl] at hr
          injection hr with hr
          subst hr
          dsimp only
          have hpred := List.find?_some hf
          rw [Bool.and_eq_true, beq_iff_eq, decide_eq_true_eq] at hpred
          obtain ⟨hdeg, hlen⟩ := hpred
          obtain ⟨hh, hres, hsub⟩ := hi
          have hvh : v ∈ h.nodes := List.mem_of_find?_eq_some hf
          rw [hh, mem_graph_minus] at hvh
          obtain ⟨hvg, hvw⟩ := hvh
          obtain ⟨hvg', hne, hn1v, hn2v, hn1g, hn2g⟩ := neighborPair_facts hdeg hnl
          have hex : ∃ n, n ∈ h.neighborList v := by
            cases hnlh : h.neighborList v with
            | nil => rw [hnlh] at hlen; simp at hlen
            | cons a tl => exact ⟨a, by simp [hnlh]⟩
          obtain ⟨n, hn⟩ := hex
          rw [hh] at hn
          obtain ⟨hng, hnw⟩ := neighborList_graph_minus_sub hn
          have hnin : n = n1 ∨ n = n2 := by
            rw [hnl] at hng
            exact List.mem_pair.1 hng
          have hguard : ¬(n1 ∈ w ∧ n2 ∈ w) := by
            rcases hnin with rfl | rfl
            · exact fun hc => hnw hc.1
            · exact fun hc => hnw hc.2
          have hn1r : n1 ∈ (g.removeNode v).nodes :=
            (List.Nodup.mem_erase_iff g.nodup).2 ⟨hn1v, hn1g⟩
          have hn2r : n2 ∈ (g.removeNode v).nodes :=
            (List.Nodup.mem_erase_iff g.nodup).2 ⟨hn2v, hn2g⟩
          have hsubpres : is_acyclic (((g.removeNode v).addEdge n1 n2).subgraph w) = true := by
            rw [subgraph_addEdge_not_mem hn1r hn2r hguard, subgraph_removeNode]
            exact is_acyclic_removeNode hsub v
          by_cases hww : n1 ∉ w ∧ n2 ∉ w
          · have hminus : graph_minus ((g.removeNode v).addEdge n1 n2) w =
                ((graph_minus g w).removeNode v).addEdge n1 n2 := by
              rw [graph_minus_addEdge_not_mem hn1r hn2r hww.1 hww.2,
                graph_minus_removeNode]
            have hnb : ∀ m ∈ g.neighborList v, m ∉ w := by
              intro m hm
              rw [hnl] at hm
              rcases List.mem_pair.1 hm with rfl | rfl
              · exact hww.1
              · exact hww.2
            have hdr : (graph_minus g w).degree v = 2 := by
              rw [graph_minus_degree_eq hvw hnb, hdeg]
            have hnr : (graph_minus g w).neighborList v = [n1, n2] := by
              rw [graph_minus_neighborList_eq hvw hnb, hnl]
            refine ⟨?_, ?_, ?_⟩
            · rw [if_pos hww, hh, hminus]
            · rw [hminus]
              exact (is_acyclic_shortcut hdr hnr).2 hres
            · exact hsubpres
          · have hminus : graph_minus ((g.removeNode v).addEdge n1 n2) w =
                (graph_minus g w).removeNode v := by
              rw [graph_minus_addEdge_mem hn1r hn2r hww, graph_minus_removeNode]
            refine ⟨?_, ?_, ?_⟩
            · rw [if_neg hww, hh, hminus]
            · rw [hminus]
              exact is_acyclic_removeNode hres v
            · exact hsubpres

theorem redPass_inv_pres {g : MGraph} {w : Finset ℕ} {h : MGraph} {k : ℤ}
    {x : Finset ℕ} {r : RedResult} {x' : Finset ℕ}
    (hr : redPass g w h k x = .ok (r, x')) (hi : Inv w g h) : Inv w r.g r.h := by
  obtain ⟨r3, hr3, hg, hhh, _, _, _⟩ := redPass_inv hr
  rw [hg, hhh]
  exact reduction3_inv hr3 (reduction2_inv _ _ _ _ (reduction1_inv _ _ _ _ hi))

theorem applyReductionsF_inv : ∀ {n : ℕ} {g : MGraph} {w : Finset ℕ} {h : MGraph}
    {k : ℤ} {x : Finset ℕ} {k' : ℤ} {x' : Finset ℕ} {g' h' : MGraph},
    applyReductionsF n g w h k x = .ok (k', x', g', h') → Inv w g h → Inv w g' h' := by
  intro n
  induction n with
  | zero => intro g w h k x k' x' g' h' heq hi; cases heq
  | succ n ihn =>
    intro g w h k x k' x' g' h' heq hi
    rw [applyReductionsF] at heq
    cases hr : redPass g w h k x with
    | error e => rw [hr] at heq; cases heq
    | ok rx =>
      obtain ⟨r, x3⟩ := rx
      rw [hr] at heq
      dsimp only at heq
      by_cases hch : r.changed
      · rw [if_pos hch] at heq
        exact ihn heq (redPass_inv_pres hr hi)
      · rw [if_neg hch] at heq
        injection heq with heq
        have hg : g' = r.g := (congrArg (fun t => t.2.2.1) heq).symm
        have hhe : h' = r.h := (congrArg (fun t => t.2.2.2) heq).symm
        rw [hg, hhe]
        exact redPass_inv_pres hr hi

end IC

namespace IC

theorem red1Go_no_leaf : ∀ {l : List ℕ} {g h : MGraph} {c : Bool},
    (red1Go l g h c).2.2 = false → ∀ v ∈ l, ¬(g.degree v ≤ 1) := by
  intro l
  induction l with
  | nil => intro g h c _ v hv; cases hv
  | cons u rest ih =>
    intro g h c hout v hv
    unfold red1Go at hout
    split at hout
    · rw [red1Go_changed_of_c] at hout; cases hout
    · rename_i hdeg
      rcases List.mem_cons.1 hv with rfl | hv'
      · exact hdeg
      · exact ih hout v hv'

theorem reduction1_min_degree {g : MGraph} {w : Finset ℕ} {h : MGraph} {k : ℤ}
    (hch : (reduction1 g w h k).changed = false) :
    ∀ v ∈ g.nodes, 2 ≤ g.degree v := by
  unfold reduction1 at hch
  dsimp only at hch
  intro v hv
  have := red1Go_no_leaf hch v hv
  omega

theorem applyReductionsF_min_degree : ∀ {n : ℕ} {g : MGraph} {w : Finset ℕ}
    {h : MGraph} {k : ℤ} {x : Finset ℕ} {k' : ℤ} {x' : Finset ℕ} {g' h' : MGraph},
    applyReductionsF n g w h k x = .ok (k', x', g', h') →
    ∀ v ∈ g'.nodes, 2 ≤ g'.degree v := by
  intro n
  induction n with
  | zero => intro g w h k x k' x' g' h' heq; cases heq
  | succ n ihn =>
    intro g w h k x k' x' g' h' heq
    rw [applyReductionsF] at heq
    cases hr : redPass g w h k x with
    | error e => rw [hr] at heq; cases heq
    | ok rx =>
      obtain ⟨r, x3⟩ := rx
      rw [hr] at heq
      dsimp only at heq
      by_cases hch : r.changed
      · rw [if_pos hch] at heq
        exact ihn heq
      · rw [if_neg hch] at heq
        injection heq with heq
        have hg : g' = r.g := (congrArg (fun t => t.2.2.1) heq).symm
        obtain ⟨r3, hr3, hrg, _, _, hchEq, _⟩ := redPass_inv hr
        rw [Bool.not_eq_true] at hch
        rw [hchEq] at hch
        simp only [Bool.or_eq_false_iff] at hch
        obtain ⟨⟨h1, h2⟩, h3⟩ := hch
        have u1 := reduction1_unchanged h1
        have u2 := reduction2_unchanged h2
        have u3 := reduction3_unchanged hr3 h3
        have hgg : r.g = g := by rw [hrg, u3.1, u2.1, u1.1]
        rw [hg, hgg]
        exact reduction1_min_degree h1

theorem reduction3_error {g : MGraph} {w : Finset ℕ} {h : MGraph} {k : ℤ} {e : String}
    (hr : reduction3 g w h k = .error e) :
    e = "ValueError: not enough values to unpack" := by
  unfold reduction3 at hr
  cases hf : h.nodes.find?
      (fun v => g.degree v == 2 && decide (1 ≤ (h.neighborList v).length)) with
  | none => rw [hf] at hr; cases hr
  | some v =>
    rw [hf] at hr
    dsimp only at hr
    cases hnl : g.neighborList v with
    | nil => rw [hnl] at hr; injection hr with hr; exact hr.symm
    | cons n1 tl =>
      cases tl with
      | nil => rw [hnl] at hr; injection hr with hr; exact hr.symm
      | cons n2 tl2 =>
        cases tl2 with
        | cons n3 tl3 => rw [hnl] at hr; injection hr with hr; exact hr.symm
        | nil => rw [hnl] at hr; cases hr

theorem redPass_error {g : MGraph} {w : Finset ℕ} {h : MGraph} {k : ℤ}
    {x : Finset ℕ} {e : String} (hr : redPass g w h k x = .error e) :
    e = "ValueError: not enough values to unpack" := by
  unfold redPass at hr
  dsimp only at hr
  cases hr3 : reduction3 (reduction2 (reduction1 g w h k).g w (reduction1 g w h k).h
      (reduction1 g w h k).k).g w
      (reduction2 (reduction1 g w h k).g w (reduction1 g w h k).h (reduction1 g w h k).k).h
      (reduction2 (reduction1 g w h k).g w (reduction1 g w h k).h (reduction1 g w h k).k).k with
  | error e' =>
    rw [hr3] at hr
    injection hr with hr
    rw [← hr]
    exact reduction3_error hr3
  | ok r3 =>
    rw [hr3] at hr
    dsimp only at hr
    cases hr

theorem applyReductionsF_error : ∀ {n : ℕ} {g : MGraph} {w : Finset ℕ} {h : MGraph}
    {k : ℤ} {x : Finset ℕ} {e : String},
    applyReductionsF n g w h k x = .error e →
    e = "fuel exhausted" ∨ e = "ValueError: not enough values to unpack" := by
  intro n
  induction n with
  | zero =>
    intro g w h k x e heq
    rw [applyReductionsF] at heq
    injection heq with heq
    exact Or.inl heq.symm
  | succ n ihn =>
    intro g w h k x e heq
    rw [applyReductionsF] at heq
    cases hr : redPass g w h k x with
    | error e' =>
      rw [hr] at heq
      dsimp only at heq
      injection heq with heq
      exact Or.inr (heq ▸ redPass_error hr)
    | ok rx =>
      obtain ⟨r, x3⟩ := rx
      rw [hr] at heq
      dsimp only at heq
      by_cases hch : r.changed
      · rw [if_pos hch] at heq
        exact ihn heq
      · rw [if_neg hch] at heq
        cases heq

end IC

namespace IC

theorem fvsDisjointF_no_assert : ∀ (n : ℕ) (g : MGraph) (w : Finset ℕ) (k : ℤ),
    is_acyclic (graph_minus g w) = true →
    fvsDisjointF n g w k ≠
      Except.error "AssertionError: There must be at least one node x of degree at most 1" := by
  intro n
  induction n with
  | zero =>
    intro g w k _ heq
    rw [fvsDisjointF] at heq
    injection heq with heq
    exact absurd heq (by decide)
  | succ n ihn =>
    intro g w k hres0 heq
    rw [fvsDisjointF] at heq
    by_cases hac : is_acyclic (g.subgraph w) = false
    · rw [if_pos hac] at heq
      cases heq
    · rw [if_neg hac] at heq
      have hsub0 : is_acyclic (g.subgraph w) = true := by
        cases hval : is_acyclic (g.subgraph w)
        · exact absurd hval hac
        · rfl
      cases hred : apply_reductions g w k with
      | error e =>
        rw [hred] at heq
        dsimp only at heq
        injection heq with heq
        unfold apply_reductions applyReductionsGo at hred
        rcases applyReductionsF_error hred with he | he
        · rw [heq] at he
          exact absurd he (by decide)
        · rw [heq] at he
          exact absurd he (by decide)
      | ok t =>
        obtain ⟨k', x, g', h'⟩ := t
        rw [hred] at heq
        dsimp only at heq
        have hinv : Inv w g' h' := by
          unfold apply_reductions applyReductionsGo at hred
          exact applyReductionsF_inv hred ⟨rfl, hres0, hsub0⟩
        obtain ⟨hh', hres', hsub'⟩ := hinv
        by_cases hk : k' < 0
        · rw [if_pos hk] at heq
          cases heq
        · rw [if_neg hk] at heq
          by_cases hg0 : g'.nodes.length = 0
          · rw [if_pos hg0] at heq
            cases heq
          · rw [if_neg hg0] at heq
            cases hfind : (graph_minus g' w).nodes.find?
                (fun v => (graph_minus g' w).degree v ≤ 1) with
            | none =>
              have hfind' := List.find?_eq_none.1 hfind
              by_cases hresEmpty : (graph_minus g' w).nodes = []
              · have hallw : ∀ v ∈ g'.nodes, v ∈ w := by
                  intro v hv
                  by_contra hvw
                  have hmem : v ∈ (graph_minus g' w).nodes :=
                    mem_graph_minus.2 ⟨hv, hvw⟩
                  rw [hresEmpty] at hmem
                  cases hmem
                have hgeq : g'.subgraph w = g' := by
                  refine MGraph.ext' ?_ ?_
                  · show g'.nodes.filter (fun v => v ∈ w) = g'.nodes
                    refine List.filter_eq_self.2 ?_
                    intro v hv
                    rw [decide_eq_true_eq]
                    exact hallw v hv
                  · show g'.edges.filter (fun e => e.1 ∈ w ∧ e.2 ∈ w) = g'.edges
                    refine List.filter_eq_self.2 ?_
                    intro e he
                    rw [decide_eq_true_eq]
                    exact ⟨hallw _ (g'.edges_mem e he).1, hallw _ (g'.edges_mem e he).2⟩
                have hg'ac : is_acyclic g' = true := by
                  rw [← hgeq]
                  exact hsub'
                have hg'ne : g'.nodes ≠ [] := by
                  intro hnil
                  exact hg0 (by rw [hnil]; rfl)
                obtain ⟨v, hv, hdeg⟩ := exists_leaf hg'ac hg'ne
                have hmin := applyReductionsF_min_degree
                  (by unfold apply_reductions applyReductionsGo at hred; exact hred) v hv
                omega
              · obtain ⟨v, hv, hdeg⟩ := exists_leaf hres' hresEmpty
                have := hfind' v hv
                rw [decide_eq_true_eq] at this
                exact this hdeg
            | some xv =>
              rw [hfind] at heq
              dsimp only at heq
              have hL : is_acyclic (graph_minus (graph_minus g' ({xv} : Finset ℕ)) w)
                  = true := by
                rw [graph_minus_singleton, graph_minus_removeNode]
                exact is_acyclic_removeNode hres' xv
              have hR : is_acyclic (graph_minus g' (insert xv w)) = true := by
                rw [graph_minus_insert]
                exact is_acyclic_removeNode hres' xv
              cases hrec1 : fvsDisjointF n (graph_minus g' ({xv} : Finset ℕ)) w (k' - 1) with
              | error e1 =>
                rw [hrec1] at heq
                dsimp only at heq
                injection heq with heq
                exact ihn (graph_minus g' ({xv} : Finset ℕ)) w (k' - 1) hL
                  (by rw [hrec1, heq])
              | ok o1 =>
                rw [hrec1] at heq
                cases o1 with
                | some sl =>
                  dsimp only at heq
                  cases heq
                | none =>
                  dsimp only at heq
                  cases hrec2 : fvsDisjointF n g' (insert xv w) k' with
                  | error e2 =>
                    rw [hrec2] at heq
                    dsimp only at heq
                    injection heq with heq
                    exact ihn g' (insert xv w) k' hR (by rw [hrec2, heq])
                  | ok o2 =>
                    rw [hrec2] at heq
                    cases o2 with
                    | some sr =>
                      dsimp only at heq
                      cases heq
                    | none =>
                      dsimp only at heq
                      cases heq

end IC

namespace IC

/-- Claim C7: for every graph `g`, protected set `w` and budget `k` such
that `w` is a feedback vertex set of `g` (the residual graph `g − w` is
acyclic), the assertion guarding the selection of the branching vertex in
`fvs_disjoint` never fails: whenever the branching step is reached with a
non-empty reduced graph, a residual vertex of degree at most 1 exists,
and the solver never raises the degree-at-most-1 `AssertionError`. -/
theorem fvs_disjoint_no_assert (g : MGraph) (w : Finset ℕ) (k : ℤ)
    (hres : is_acyclic (graph_minus g w) = true) :
    fvs_disjoint g w k ≠
      Except.error "AssertionError: There must be at least one node x of degree at most 1" := by
  unfold fvs_disjoint
  exact fvsDisjointF_no_assert (muFD g w + 1) g w k hres

/-- Witness for C7: on the triangle `exG6` with protected set `{0}` and
budget 1, the hypothesis holds and the solver does not raise the
assertion. -/
theorem fvs_disjoint_no_assert_witness :
    is_acyclic (graph_minus exG6 ({0} : Finset ℕ)) = true ∧
    fvs_disjoint exG6 ({0} : Finset ℕ) 1 ≠
      Except.error "AssertionError: There must be at least one node x of degree at most 1" :=
  ⟨by decide, fvs_disjoint_no_assert exG6 ({0} : Finset ℕ) 1 (by decide)⟩

end IC

namespace IC

theorem reduction2_cases (g : MGraph) (w : Finset ℕ) (h : MGraph) (k : ℤ) :
    (reduction2 g w h k = ⟨k, none, false, g, h⟩) ∨
    (∃ v, v ∈ h.nodes ∧
      reduction2 g w h k = ⟨k - 1, some v, true, g.removeNode v, h.removeNode v⟩) := by
  unfold reduction2
  cases hf : h.nodes.find? (fun v => !(is_acyclic (g.subgraph (insert v w)))) with
  | none => exact Or.inl rfl
  | some v => exact Or.inr ⟨v, List.mem_of_find?_eq_some hf, rfl⟩

theorem reduction3_cases {g : MGraph} {w : Finset ℕ} {h : MGraph} {k : ℤ}
    {r : RedResult} (hr : reduction3 g w h k = .ok r) :
    r = ⟨k, none, false, g, h⟩ ∨
    (∃ v n1 n2, v ∈ h.nodes ∧ g.degree v = 2 ∧ 1 ≤ (h.neighborList v).length ∧
      g.neighborList v = [n1, n2] ∧
      r = ⟨k, none, true, (g.removeNode v).addEdge n1 n2,
        if n1 ∉ w ∧ n2 ∉ w then (h.removeNode v).addEdge n1 n2
        else h.removeNode v⟩) := by
  unfold reduction3 at hr
  cases hf : h.nodes.find?
      (fun v => g.degree v == 2 && decide (1 ≤ (h.neighborList v).length)) with
  | none =>
    rw [hf] at hr
    injection hr with hr
    exact Or.inl hr.symm
  | some v =>
    rw [hf] at hr
    dsimp only at hr
    have hpred := List.find?_some hf
    rw [Bool.and_eq_true, beq_iff_eq, decide_eq_true_eq] at hpred
    cases hnl : g.neighborList v with
    | nil => rw [hnl] at hr; cases hr
    | cons n1 tl =>
      cases tl with
      | nil => rw [hnl] at hr; cases hr
      | cons n2 tl2 =>
        cases tl2 with
        | cons n3 tl3 => rw [hnl] at hr; cases hr
        | nil =>
          rw [hnl] at hr
          injection hr with hr
          exact Or.inr ⟨v, n1, n2, List.mem_of_find?_eq_some hf,
            hpred.1, hpred.2, hnl, hr.symm⟩

theorem graph_minus_removeNode_mem {g : MGraph} {S : Finset ℕ} {v : ℕ}
    (hvS : v ∈ S) : graph_minus (g.removeNode v) S = graph_minus g S := by
  rw [graph_minus_removeNode]
  refine removeNode_of_not_mem ?_
  intro hc
  exact (mem_graph_minus.1 hc).2 hvS

theorem graph_minus_union_absent {g : MGraph} {A B : Finset ℕ}
    (hA : ∀ u ∈ A, u ∉ g.nodes) : graph_minus g (A ∪ B) = graph_minus g B := by
  refine MGraph.ext' ?_ ?_
  · show g.nodes.filter (fun u => u ∉ A ∪ B) = g.nodes.filter (fun u => u ∉ B)
    refine List.filter_congr ?_
    intro u hu
    have huA : u ∉ A := fun hc => hA u hc hu
    simp [Finset.mem_union, huA]
  · show g.edges.filter (fun e => e.1 ∉ A ∪ B ∧ e.2 ∉ A ∪ B) =
      g.edges.filter (fun e => e.1 ∉ B ∧ e.2 ∉ B)
    refine List.filter_congr ?_
    intro e he
    have h1A : e.1 ∉ A := fun hc => hA e.1 hc (g.edges_mem e he).1
    have h2A : e.2 ∉ A := fun hc => hA e.2 hc (g.edges_mem e he).2
    simp [Finset.mem_union, h1A, h2A]

theorem graph_minus_graph_minus (g : MGraph) (A B : Finset ℕ) :
    graph_minus (graph_minus g A) B = graph_minus g (A ∪ B) := by
  refine MGraph.ext' ?_ ?_
  · show (g.nodes.filter (fun u => u ∉ A)).filter (fun u => u ∉ B) =
      g.nodes.filter (fun u => u ∉ A ∪ B)
    rw [List.filter_filter]
    refine List.filter_congr ?_
    intro u _
    by_cases hA : u ∈ A <;> by_cases hB : u ∈ B <;> simp [hA, hB]
  · show (g.edges.filter (fun e => e.1 ∉ A ∧ e.2 ∉ A)).filter
        (fun e => e.1 ∉ B ∧ e.2 ∉ B) =
      g.edges.filter (fun e => e.1 ∉ A ∪ B ∧ e.2 ∉ A ∪ B)
    rw [List.filter_filter]
    refine List.filter_congr ?_
    intro e _
    by_cases h1A : e.1 ∈ A <;> by_cases h2A : e.2 ∈ A <;>
      by_cases h1B : e.1 ∈ B <;> by_cases h2B : e.2 ∈ B <;>
        simp [h1A, h2A, h1B, h2B]

theorem graph_minus_degree_le (g : MGraph) (S : Finset ℕ) (v : ℕ) :
    (graph_minus g S).degree v ≤ g.degree v := by
  show (g.edges.filter (fun e => e.1 ∉ S ∧ e.2 ∉ S)).countP (fun e => e.1 = v) +
      (g.edges.filter (fun e => e.1 ∉ S ∧ e.2 ∉ S)).countP (fun e => e.2 = v) ≤
    g.edges.countP (fun e => e.1 = v) + g.edges.countP (fun e => e.2 = v)
  have h1 := (List.filter_sublist (l := g.edges)
    (p := fun e => decide (e.1 ∉ S ∧ e.2 ∉ S))).countP_le (fun e => decide (e.1 = v))
  have h2 := (List.filter_sublist (l := g.edges)
    (p := fun e => decide (e.1 ∉ S ∧ e.2 ∉ S))).countP_le (fun e => decide (e.2 = v))
  omega

end IC

namespace IC

theorem countP_filter_eq {α : Type} (l : List α) (q p : α → Bool) :
    (l.filter q).countP p = l.countP (fun a => p a && q a) := by
  induction l with
  | nil => rfl
  | cons a l ih =>
    rw [List.filter_cons, List.countP_cons]
    by_cases hq : q a = true
    · rw [if_pos hq, List.countP_cons, ih, hq]
      cases hp : p a <;> simp
    · have hq' : q a = false := by
        cases hqa : q a
        · rfl
        · exact absurd hqa hq
      rw [if_neg hq, ih, hq']
      cases hp : p a <;> simp

theorem countP_and_split {α : Type} (l : List α) (p q : α → Bool) :
    l.countP p = l.countP (fun a => p a && q a) + l.countP (fun a => p a && !q a) := by
  induction l with
  | nil => rfl
  | cons a l ih =>
    rw [List.countP_cons, List.countP_cons, List.countP_cons, ih]
    cases hp : p a <;> cases hq : q a <;> simp <;> omega

/-- When one of the two distinct neighbors of a degree-2 vertex is deleted
with `S`, the vertex keeps at most one incident edge endpoint. -/
theorem graph_minus_degree_le_one {g : MGraph} {v n1 n2 : ℕ}
    (hdeg : g.degree v = 2) (hnl : g.neighborList v = [n1, n2])
    {S : Finset ℕ} (hS : n1 ∈ S ∨ n2 ∈ S) :
    (graph_minus g S).degree v ≤ 1 := by
  have hm : ∃ m, m ∈ g.neighborList v ∧ m ∈ S := by
    rcases hS with h | h
    · exact ⟨n1, by rw [hnl]; simp, h⟩
    · exact ⟨n2, by rw [hnl]; simp, h⟩
  obtain ⟨m, hmn, hmS⟩ := hm
  rw [mem_neighborList_iff] at hmn
  obtain ⟨e0, he0, hc0⟩ := hmn
  show (g.edges.filter (fun e => e.1 ∉ S ∧ e.2 ∉ S)).countP (fun e => e.1 = v) +
      (g.edges.filter (fun e => e.1 ∉ S ∧ e.2 ∉ S)).countP (fun e => e.2 = v) ≤ 1
  rw [countP_filter_eq, countP_filter_eq]
  have hsplit1 := countP_and_split g.edges (fun e => decide (e.1 = v))
    (fun e => decide (e.1 ∉ S ∧ e.2 ∉ S))
  have hsplit2 := countP_and_split g.edges (fun e => decide (e.2 = v))
    (fun e => decide (e.1 ∉ S ∧ e.2 ∉ S))
  have hq0 : (decide (e0.1 ∉ S ∧ e0.2 ∉ S)) = false := by
    rw [decide_eq_false_iff_not]
    rcases hc0 with ⟨h1, h2⟩ | ⟨h1, h2⟩
    · exact fun hc => hc.2 (h2 ▸ hmS)
    · exact fun hc => hc.1 (h2 ▸ hmS)
  have hdrop : 1 ≤ g.edges.countP
        (fun e => decide (e.1 = v) && !decide (e.1 ∉ S ∧ e.2 ∉ S)) +
      g.edges.countP (fun e => decide (e.2 = v) && !decide (e.1 ∉ S ∧ e.2 ∉ S)) := by
    rcases hc0 with ⟨h1, _⟩ | ⟨h1, _⟩
    · have : 0 < g.edges.countP
          (fun e => decide (e.1 = v) && !decide (e.1 ∉ S ∧ e.2 ∉ S)) := by
        rw [List.countP_pos_iff]
        exact ⟨e0, he0, by rw [hq0]; simp [h1]⟩
      omega
    · have : 0 < g.edges.countP
          (fun e => decide (e.2 = v) && !decide (e.1 ∉ S ∧ e.2 ∉ S)) := by
        rw [List.countP_pos_iff]
        exact ⟨e0, he0, by rw [hq0]; simp [h1]⟩
      omega
  unfold MGraph.degree at hdeg
  have hcomm1 : g.edges.countP (fun e => decide (e.1 = v) &&
        decide (e.1 ∉ S ∧ e.2 ∉ S)) =
      g.edges.countP (fun e => decide (e.1 ∉ S ∧ e.2 ∉ S) && decide (e.1 = v)) := by
    refine countP_congr_mem _ _ _ ?_
    intro e _
    exact Bool.and_comm _ _
  have hcomm2 : g.edges.countP (fun e => decide (e.2 = v) &&
        decide (e.1 ∉ S ∧ e.2 ∉ S)) =
      g.edges.countP (fun e => decide (e.1 ∉ S ∧ e.2 ∉ S) && decide (e.2 = v)) := by
    refine countP_congr_mem _ _ _ ?_
    intro e _
    exact Bool.and_comm _ _
  omega

end IC

namespace IC

/-- Deleting a vertex of degree ≤ 1 can be undone in any feedback-set
check: a solution for the smaller graph also works for the original. -/
theorem lift_removeNode_leaf {g : MGraph} {v : ℕ} (hdeg : g.degree v ≤ 1)
    (S : Finset ℕ)
    (hac : is_acyclic (graph_minus (g.removeNode v) S) = true) :
    is_acyclic (graph_minus g S) = true := by
  by_cases hvS : v ∈ S
  · rwa [graph_minus_removeNode_mem hvS] at hac
  · rw [graph_minus_removeNode] at hac
    by_cases hvg : v ∈ (graph_minus g S).nodes
    · have hd : (graph_minus g S).degree v ≤ 1 :=
        le_trans (graph_minus_degree_le g S v) hdeg
      exact (is_acyclic_removeNode_leaf hd hvg).1 hac
    · rwa [removeNode_of_not_mem hvg] at hac

/-- A forced deletion is sound: a solution for the smaller graph plus the
forced vertex is a solution for the original graph. -/
theorem lift_removeNode_forced (g : MGraph) (v : ℕ) (S : Finset ℕ)
    (hac : is_acyclic (graph_minus (g.removeNode v) S) = true) :
    is_acyclic (graph_minus g (insert v S)) = true := by
  rw [graph_minus_insert]
  rwa [graph_minus_removeNode] at hac

/-- The degree-2 bypass is sound for feedback-set checks: a solution of
the shortcut graph avoiding the bypassed vertex is a solution of the
original graph. -/
theorem lift_shortcut {g : MGraph} {v n1 n2 : ℕ} (hdeg : g.degree v = 2)
    (hnl : g.neighborList v = [n1, n2]) {S : Finset ℕ} (hvS : v ∉ S)
    (hac : is_acyclic (graph_minus ((g.removeNode v).addEdge n1 n2) S) = true) :
    is_acyclic (graph_minus g S) = true := by
  obtain ⟨hvg, hne, hn1v, hn2v, hn1g, hn2g⟩ := neighborPair_facts hdeg hnl
  have hn1r : n1 ∈ (g.removeNode v).nodes :=
    (List.Nodup.mem_erase_iff g.nodup).2 ⟨hn1v, hn1g⟩
  have hn2r : n2 ∈ (g.removeNode v).nodes :=
    (List.Nodup.mem_erase_iff g.nodup).2 ⟨hn2v, hn2g⟩
  by_cases hSS : n1 ∉ S ∧ n2 ∉ S
  · rw [graph_minus_addEdge_not_mem hn1r hn2r hSS.1 hSS.2,
      graph_minus_removeNode] at hac
    have hnb : ∀ m ∈ g.neighborList v, m ∉ S := by
      intro m hm
      rw [hnl] at hm
      rcases List.mem_pair.1 hm with rfl | rfl
      · exact hSS.1
      · exact hSS.2
    have hdr : (graph_minus g S).degree v = 2 := by
      rw [graph_minus_degree_eq hvS hnb, hdeg]
    have hnr : (graph_minus g S).neighborList v = [n1, n2] := by
      rw [graph_minus_neighborList_eq hvS hnb, hnl]
    exact (is_acyclic_shortcut hdr hnr).1 hac
  · rw [graph_minus_addEdge_mem hn1r hn2r hSS, graph_minus_removeNode] at hac
    have hS : n1 ∈ S ∨ n2 ∈ S := by
      by_contra hc
      push_neg at hc
      exact hSS ⟨hc.1, hc.2⟩
    have hd : (graph_minus g S).degree v ≤ 1 :=
      graph_minus_degree_le_one hdeg hnl hS
    by_cases hvg' : v ∈ (graph_minus g S).nodes
    · exact (is_acyclic_removeNode_leaf hd hvg').1 hac
    · rwa [removeNode_of_not_mem hvg'] at hac

theorem red1Go_lift : ∀ (l : List ℕ) (g h : MGraph) (c : Bool) (S : Finset ℕ),
    is_acyclic (graph_minus (red1Go l g h c).1 S) = true →
    is_acyclic (graph_minus g S) = true := by
  intro l
  induction l with
  | nil => intro g h c S hac; exact hac
  | cons v rest ih =>
    intro g h c S hac
    unfold red1Go at hac
    split at hac
    · rename_i hdeg
      exact lift_removeNode_leaf hdeg S (ih _ _ _ S hac)
    · exact ih _ _ _ S hac

theorem red1Go_hmirror {w : Finset ℕ} : ∀ (l : List ℕ) (g h : MGraph) (c : Bool),
    h = graph_minus g w →
    (red1Go l g h c).2.1 = graph_minus (red1Go l g h c).1 w := by
  intro l
  induction l with
  | nil => intro g h c hh; exact hh
  | cons v rest ih =>
    intro g h c hh
    unfold red1Go
    split
    · exact ih _ _ _ (by rw [hh, graph_minus_removeNode])
    · exact ih _ _ _ hh

theorem reduction1_lift (g : MGraph) (w : Finset ℕ) (h : MGraph) (k : ℤ)
    (S : Finset ℕ)
    (hac : is_acyclic (graph_minus (reduction1 g w h k).g S) = true) :
    is_acyclic (graph_minus g S) = true := by
  unfold reduction1 at hac
  dsimp only at hac
  exact red1Go_lift g.nodes g h false S hac

theorem reduction1_hmirror (g : MGraph) (w : Finset ℕ) (h : MGraph) (k : ℤ)
    (hh : h = graph_minus g w) :
    (reduction1 g w h k).h = graph_minus (reduction1 g w h k).g w := by
  unfold reduction1
  dsimp only
  exact red1Go_hmirror g.nodes g h false hh

end IC

namespace IC

/-- Soundness packaging for one `reduction3` step: the `h`-mirror is
maintained, the budget is untouched, vertices only disappear, and any
feedback-set solution of the output lifts to the input provided it avoids
vertices that the step deleted. -/
theorem reduction3_step_sound {gin : MGraph} {w : Finset ℕ} {hin : MGraph}
    {k : ℤ} {r3 : RedResult} (hr3 : reduction3 gin w hin k = .ok r3)
    (hhin : hin = graph_minus gin w) :
    r3.h = graph_minus r3.g w ∧ r3.k = k ∧ r3.g.nodes.Sublist gin.nodes ∧
    (∀ T : Finset ℕ, (∀ u ∈ T, u ∉ r3.g.nodes → u ∉ gin.nodes) →
      is_acyclic (graph_minus r3.g T) = true →
      is_acyclic (graph_minus gin T) = true) := by
  rcases reduction3_cases hr3 with hlit | ⟨v, n1, n2, hvh, hdeg, hlen, hnl, hlit⟩
  · subst hlit
    exact ⟨hhin, rfl, List.Sublist.refl _, fun T _ hac => hac⟩
  · subst hlit
    dsimp only
    obtain ⟨hvg, hne, hn1v, hn2v, hn1g, hn2g⟩ := neighborPair_facts hdeg hnl
    rw [hhin, mem_graph_minus] at hvh
    obtain ⟨hvgin, hvw⟩ := hvh
    have hn1r : n1 ∈ (gin.removeNode v).nodes :=
      (List.Nodup.mem_erase_iff gin.nodup).2 ⟨hn1v, hn1g⟩
    have hn2r : n2 ∈ (gin.removeNode v).nodes :=
      (List.Nodup.mem_erase_iff gin.nodup).2 ⟨hn2v, hn2g⟩
    have hnodes : ((gin.removeNode v).addEdge n1 n2).nodes = gin.nodes.erase v :=
      shortcut_nodes hdeg hnl
    refine ⟨?_, rfl, ?_, ?_⟩
    · by_cases hww : n1 ∉ w ∧ n2 ∉ w
      · rw [if_pos hww, hhin,
          graph_minus_addEdge_not_mem hn1r hn2r hww.1 hww.2,
          graph_minus_removeNode]
      · rw [if_neg hww, hhin,
          graph_minus_addEdge_mem hn1r hn2r hww, graph_minus_removeNode]
    · rw [hnodes]
      exact List.erase_sublist _ _
    · intro T hT hac
      have hvT : v ∉ T := by
        intro hvT
        refine hT v hvT ?_ hvgin
        rw [hnodes]
        intro hc
        exact ((List.Nodup.mem_erase_iff gin.nodup).1 hc).1 rfl
      exact lift_shortcut hdeg hnl hvT hac

end IC

namespace IC

/-- Soundness packaging for one pass of the reduction loop: the `h`-mirror
is maintained, the budget drop covers the growth of the forced set, forced
vertices are residual vertices that are removed from the graph, and
feedback-set solutions lift across the pass. -/
theorem redPass_sound {g : MGraph} {w : Finset ℕ} {h : MGraph} {k : ℤ}
    {x : Finset ℕ} {r : RedResult} {x3 : Finset ℕ}
    (hr : redPass g w h k x = .ok (r, x3))
    (hh : h = graph_minus g w)
    (hx : ∀ u ∈ x, u ∉ g.nodes) :
    r.h = graph_minus r.g w ∧
    x ⊆ x3 ∧
    (r.k + (x3.card : ℤ) ≤ k + (x.card : ℤ)) ∧
    (∀ u ∈ x3, u ∈ x ∨ (u ∈ g.nodes ∧ u ∉ w)) ∧
    (∀ u ∈ x3, u ∉ r.g.nodes) ∧
    (∀ T : Finset ℕ, x3 ⊆ T → (∀ u ∈ T, u ∈ x3 ∨ u ∈ r.g.nodes) →
      is_acyclic (graph_minus r.g T) = true →
      is_acyclic (graph_minus g T) = true) := by
  obtain ⟨r3, hr3, hg, hhh, hk, _, hx3eq⟩ := redPass_inv hr
  have hh1 : (reduction1 g w h k).h = graph_minus (reduction1 g w h k).g w :=
    reduction1_hmirror g w h k hh
  have hsub1 : (reduction1 g w h k).g.nodes.Sublist g.nodes :=
    (reduction1_sublist g w h k).1
  rcases reduction2_cases (reduction1 g w h k).g w (reduction1 g w h k).h
      (reduction1 g w h k).k with heq2 | ⟨v2, hv2, heq2⟩
  · rw [heq2] at hr3 hx3eq
    dsimp only at hr3 hx3eq
    subst hx3eq
    obtain ⟨hm3, hk3, hsub3, hlift3⟩ := reduction3_step_sound hr3 hh1
    have hk1 : (reduction1 g w h k).k = k := rfl
    refine ⟨?_, Finset.Subset.refl _, ?_, ?_, ?_, ?_⟩
    · rw [hhh, hg]
      exact hm3
    · have hrk : r.k = k := by rw [hk, hk3, hk1]
      rw [hrk]
    · exact fun u hu => Or.inl hu
    · intro u hu
      rw [hg]
      exact fun hc => hx u hu ((hsub3.trans hsub1).subset hc)
    · intro T hT1 hT2 hacT
      rw [hg] at hacT
      refine reduction1_lift g w h k T (hlift3 T ?_ hacT)
      intro u hu hnot
      rcases hT2 u hu with hux | hug
      · exact fun hc => hx u hux (hsub1.subset hc)
      · rw [hg] at hug
        exact absurd hug hnot
  · rw [heq2] at hr3 hx3eq
    dsimp only at hr3 hx3eq
    subst hx3eq
    rw [hh1, mem_graph_minus] at hv2
    obtain ⟨hv2g, hv2w⟩ := hv2
    have hm2 : (reduction1 g w h k).h.removeNode v2 =
        graph_minus ((reduction1 g w h k).g.removeNode v2) w := by
      rw [hh1, graph_minus_removeNode]
    obtain ⟨hm3, hk3, hsub3, hlift3⟩ := reduction3_step_sound hr3 hm2
    have hsubRem : ((reduction1 g w h k).g.removeNode v2).nodes.Sublist
        (reduction1 g w h k).g.nodes := List.erase_sublist _ _
    refine ⟨?_, Finset.subset_insert v2 x, ?_, ?_, ?_, ?_⟩
    · rw [hhh, hg]
      exact hm3
    · have hk1 : (reduction1 g w h k).k = k := rfl
      have hrk : r.k = k - 1 := by rw [hk, hk3, hk1]
      have hci := Finset.card_insert_le v2 x
      rw [hrk]
      omega
    · intro u hu
      rcases Finset.mem_insert.1 hu with rfl | hux
      · exact Or.inr ⟨hsub1.subset hv2g, hv2w⟩
      · exact Or.inl hux
    · intro u hu
      rw [hg]
      rcases Finset.mem_insert.1 hu with rfl | hux
      · intro hc
        exact ((List.Nodup.mem_erase_iff (reduction1 g w h k).g.nodup).1
          (hsub3.subset hc)).1 rfl
      · exact fun hc => hx u hux ((hsub3.trans (hsubRem.trans hsub1)).subset hc)
    · intro T hT1 hT2 hacT
      rw [hg] at hacT
      have hv2T : v2 ∈ T := hT1 (Finset.mem_insert_self v2 x)
      have hac2 : is_acyclic (graph_minus ((reduction1 g w h k).g.removeNode v2) T)
          = true := by
        refine hlift3 T ?_ hacT
        intro u hu hnot
        rcases hT2 u hu with hux | hug
        · rcases Finset.mem_insert.1 hux with rfl | hux'
          · intro hc
            exact ((List.Nodup.mem_erase_iff (reduction1 g w h k).g.nodup).1 hc).1 rfl
          · exact fun hc => hx u hux' ((hsubRem.trans hsub1).subset hc)
        · rw [hg] at hug
          exact absurd hug hnot
      rw [graph_minus_removeNode_mem hv2T] at hac2
      exact reduction1_lift g w h k T hac2

end IC

namespace IC

/-- Soundness of the whole reduction loop: the forced set only grows with
residual vertices paid for by the budget, all forced vertices are removed
from the graph, and feedback-set solutions of the reduced graph lift back
to the input graph once the forced set is included. -/
theorem applyReductionsF_sound : ∀ {n : ℕ} {g : MGraph} {w : Finset ℕ}
    {h : MGraph} {k : ℤ} {x : Finset ℕ} {k' : ℤ} {x' : Finset ℕ} {g' h' : MGraph},
    applyReductionsF n g w h k x = .ok (k', x', g', h') →
    h = graph_minus g w →
    (∀ u ∈ x, u ∉ g.nodes) →
    x ⊆ x' ∧
    (k' + (x'.card : ℤ) ≤ k + (x.card : ℤ)) ∧
    (∀ u ∈ x', u ∈ x ∨ (u ∈ g.nodes ∧ u ∉ w)) ∧
    (∀ u ∈ x', u ∉ g'.nodes) ∧
    (∀ T : Finset ℕ, x' ⊆ T → (∀ u ∈ T, u ∈ x' ∨ u ∈ g'.nodes) →
      is_acyclic (graph_minus g' T) = true →
      is_acyclic (graph_minus g T) = true) := by
  intro n
  induction n with
  | zero => intro g w h k x k' x' g' h' heq _ _; cases heq
  | succ n ihn =>
    intro g w h k x k' x' g' h' heq hh hx
    rw [applyReductionsF] at heq
    cases hr : redPass g w h k x with
    | error e => rw [hr] at heq; cases heq
    | ok rx =>
      obtain ⟨r, x3⟩ := rx
      rw [hr] at heq
      dsimp only at heq
      obtain ⟨hm3, hxx3, hbud, hmem3, hnot3, hlift3⟩ := redPass_sound hr hh hx
      by_cases hch : r.changed
      · rw [if_pos hch] at heq
        obtain ⟨hx3x', hbud', hmem', hnot', hlift'⟩ := ihn heq hm3 hnot3
        have hsubInner : g'.nodes.Sublist r.g.nodes := applyReductionsF_sublist heq
        have hsubPass : r.g.nodes.Sublist g.nodes := redPass_sublist hr
        refine ⟨hxx3.trans hx3x', by omega, ?_, hnot', ?_⟩
        · intro u hu
          rcases hmem' u hu with hu3 | ⟨hug, huw⟩
          · rcases hmem3 u hu3 with hux | ⟨hug, huw⟩
            · exact Or.inl hux
            · exact Or.inr ⟨hug, huw⟩
          · exact Or.inr ⟨hsubPass.subset hug, huw⟩
        · intro T hT1 hT2 hacT
          have hac2 : is_acyclic (graph_minus r.g T) = true :=
            hlift' T hT1 hT2 hacT
          refine hlift3 T (hxx3.trans hx3x' |>.trans hT1 |> fun _ => ?_) ?_ hac2
          · exact fun {a} ha => hT1 (hx3x' ha)
          · intro u hu
            rcases hT2 u hu with hux' | hug'
            · rcases hmem' u hux' with hu3 | ⟨hug, _⟩
              · exact Or.inl hu3
              · exact Or.inr hug
            · exact Or.inr (hsubInner.subset hug')
      · rw [if_neg hch] at heq
        injection heq with heq
        have hkk : k' = r.k := (congrArg (fun t => t.1) heq).symm
        have hxx : x' = x3 := (congrArg (fun t => t.2.1) heq).symm
        have hgg : g' = r.g := (congrArg (fun t => t.2.2.1) heq).symm
        subst hkk
        subst hxx
        subst hgg
        exact ⟨hxx3, hbud, hmem3, hnot3, hlift3⟩

end IC

namespace IC

theorem is_acyclic_of_no_nodes {g : MGraph} (hg : g.nodes = []) (S : Finset ℕ) :
    is_acyclic (graph_minus g S) = true := by
  unfold is_acyclic
  have hn : (graph_minus g S).nodes = [] := by
    show g.nodes.filter _ = []
    rw [hg]
    rfl
  rw [hn]
  rfl

theorem fvsDisjointF_sound : ∀ (n : ℕ) (g : MGraph) (w : Finset ℕ) (k : ℤ)
    (X : Finset ℕ), fvsDisjointF n g w k = .ok (some X) →
    (∀ v ∈ X, v ∈ g.nodes ∧ v ∉ w) ∧ ((X.card : ℤ) ≤ k) ∧
    is_acyclic (graph_minus g X) = true := by
  intro n
  induction n with
  | zero =>
    intro g w k X heq
    rw [fvsDisjointF] at heq
    cases heq
  | succ n ihn =>
    intro g w k X heq
    rw [fvsDisjointF] at heq
    by_cases hac : is_acyclic (g.subgraph w) = false
    · rw [if_pos hac] at heq
      injection heq with heq
      cases heq
    · rw [if_neg hac] at heq
      cases hred : apply_reductions g w k with
      | error e =>
        rw [hred] at heq
        dsimp only at heq
        cases heq
      | ok t =>
        obtain ⟨k', x, g', h'⟩ := t
        rw [hred] at heq
        dsimp only at heq
        have hredF : applyReductionsF (2 * g.nodes.length +
            (graph_minus g w).nodes.length + 1) g w (graph_minus g w) k ∅
            = .ok (k', x, g', h') := by
          unfold apply_reductions applyReductionsGo at hred
          exact hred
        obtain ⟨_, hbud, hmem, hnot, hlift⟩ :=
          applyReductionsF_sound hredF rfl (fun u hu => absurd hu (Finset.not_mem_empty u))
        rw [Finset.card_empty] at hbud
        have hmem' : ∀ u ∈ x, u ∈ g.nodes ∧ u ∉ w := by
          intro u hu
          rcases hmem u hu with hc | hc
          · exact absurd hc (Finset.not_mem_empty u)
          · exact hc
        have hsubG : g'.nodes.Sublist g.nodes := applyReductionsF_sublist hredF
        by_cases hk : k' < 0
        · rw [if_pos hk] at heq
          injection heq with heq
          cases heq
        · rw [if_neg hk] at heq
          by_cases hg0 : g'.nodes.length = 0
          · rw [if_pos hg0] at heq
            injection heq with heq
            injection heq with heq
            subst heq
            have hnil : g'.nodes = [] := List.length_eq_zero.1 hg0
            refine ⟨hmem', by omega, ?_⟩
            refine hlift x (Finset.Subset.refl _) (fun u hu => Or.inl hu) ?_
            exact is_acyclic_of_no_nodes hnil x
          · rw [if_neg hg0] at heq
            cases hfind : (graph_minus g' w).nodes.find?
                (fun v => (graph_minus g' w).degree v ≤ 1) with
            | none =>
              rw [hfind] at heq
              cases heq
            | some xv =>
              rw [hfind] at heq
              dsimp only at heq
              have hxv := List.mem_of_find?_eq_some hfind
              rw [mem_graph_minus] at hxv
              obtain ⟨hxvg, hxvw⟩ := hxv
              cases hrec1 : fvsDisjointF n (graph_minus g' ({xv} : Finset ℕ)) w (k' - 1) with
              | error e1 =>
                rw [hrec1] at heq
                dsimp only at heq
                cases heq
              | ok o1 =>
                rw [hrec1] at heq
                cases o1 with
                | some sl =>
                  dsimp only at heq
                  injection heq with heq
                  injection heq with heq
                  subst heq
                  obtain ⟨hslmem, hslcard, hslac⟩ :=
                    ihn (graph_minus g' ({xv} : Finset ℕ)) w (k' - 1) sl hrec1
                  have hslg' : ∀ u ∈ sl, u ∈ g'.nodes ∧ u ∉ w := by
                    intro u hu
                    obtain ⟨hu1, hu2⟩ := hslmem u hu
                    rw [mem_graph_minus] at hu1
                    exact ⟨hu1.1, hu2⟩
                  refine ⟨?_, ?_, ?_⟩
                  · intro v hv
                    rcases Finset.mem_union.1 hv with hv' | hv'
                    · rcases Finset.mem_union.1 hv' with hvx | hvsl
                      · exact hmem' v hvx
                      · exact ⟨hsubG.subset (hslg' v hvsl).1, (hslg' v hvsl).2⟩
                    · rw [Finset.mem_singleton] at hv'
                      subst hv'
                      exact ⟨hsubG.subset hxvg, hxvw⟩
                  · have hc1 := Finset.card_union_le (x ∪ sl) ({xv} : Finset ℕ)
                    have hc2 := Finset.card_union_le x sl
                    have hc3 : ({xv} : Finset ℕ).card = 1 := Finset.card_singleton xv
                    omega
                  · have hacg' : is_acyclic (graph_minus g' ((x ∪ sl) ∪ {xv})) = true := by
                      rw [graph_minus_graph_minus] at hslac
                      have habs : graph_minus g' ((x ∪ sl) ∪ {xv}) =
                          graph_minus g' (({xv} : Finset ℕ) ∪ sl) := by
                        have h1 : ((x ∪ sl) ∪ {xv} : Finset ℕ) =
                            x ∪ (({xv} : Finset ℕ) ∪ sl) := by
                          ext u
                          simp [Finset.mem_union, Finset.mem_singleton]
                          tauto
                        rw [h1]
                        exact graph_minus_union_absent (fun u hu => hnot u hu)
                      rw [habs]
                      exact hslac
                    refine hlift ((x ∪ sl) ∪ {xv}) ?_ ?_ hacg'
                    · intro u hu
                      exact Finset.mem_union_left _ (Finset.mem_union_left _ hu)
                    · intro u hu
                      rcases Finset.mem_union.1 hu with hu' | hu'
                      · rcases Finset.mem_union.1 hu' with hux | husl
                        · exact Or.inl hux
                        · exact Or.inr (hslg' u husl).1
                      · rw [Finset.mem_singleton] at hu'
                        subst hu'
                        exact Or.inr hxvg
                | none =>
                  dsimp only at heq
                  cases hrec2 : fvsDisjointF n g' (insert xv w) k' with
                  | error e2 =>
                    rw [hrec2] at heq
                    dsimp only at heq
                    cases heq
                  | ok o2 =>
                    rw [hrec2] at heq
                    cases o2 with
                    | some sr =>
                      dsimp only at heq
                      injection heq with heq
                      injection heq with heq
                      subst heq
                      obtain ⟨hsrmem, hsrcard, hsrac⟩ :=
                        ihn g' (insert xv w) k' sr hrec2
                      have hsrg' : ∀ u ∈ sr, u ∈ g'.nodes ∧ u ∉ w := by
                        intro u hu
                        obtain ⟨hu1, hu2⟩ := hsrmem u hu
                        exact ⟨hu1, fun hc => hu2 (Finset.mem_insert_of_mem hc)⟩
                      refine ⟨?_, ?_, ?_⟩
                      · intro v hv
                        rcases Finset.mem_union.1 hv with hvx | hvsr
                        · exact hmem' v hvx
                        · exact ⟨hsubG.subset (hsrg' v hvsr).1, (hsrg' v hvsr).2⟩
                      · have hc2 := Finset.card_union_le x sr
                        omega
                      · have hacg' : is_acyclic (graph_minus g' (x ∪ sr)) = true := by
                          rw [graph_minus_union_absent (fun u hu => hnot u hu)]
                          exact hsrac
                        refine hlift (x ∪ sr) ?_ ?_ hacg'
                        · exact fun u hu => Finset.mem_union_left _ hu
                        · intro u hu
                          rcases Finset.mem_union.1 hu with hux | husr
                          · exact Or.inl hux
                          · exact Or.inr (hsrg' u husr).1
                    | none =>
                      dsimp only at heq
                      injection heq with heq
                      cases heq

end IC

namespace IC

/-- Claim C3: for every graph `g`, every protected set `w` with the
induced subgraph `g[w]` acyclic, and every budget `k`, every non-None
result `X` of the disjoint-FVS solver `fvs_disjoint` is disjoint from
`w`, has size at most `k`, and removing `X` from `g` leaves the graph
acyclic. -/
theorem fvs_disjoint_sound (g : MGraph) (w : Finset ℕ) (k : ℤ) (X : Finset ℕ)
    (hw : is_acyclic (g.subgraph w) = true)
    (hres : fvs_disjoint g w k = .ok (some X)) :
    (∀ v ∈ X, v ∉ w) ∧ ((X.card : ℤ) ≤ k) ∧
    is_acyclic (graph_minus g X) = true := by
  unfold fvs_disjoint at hres
  obtain ⟨hmem, hcard, hac⟩ := fvsDisjointF_sound (muFD g w + 1) g w k X hres
  exact ⟨fun v hv => (hmem v hv).2, hcard, hac⟩

/-- Witness for C3: on the two-vertex multigraph `exG5` (a parallel pair
0–1) with protected set `{1}` and budget 1, the solver returns `{0}`,
which is disjoint from `{1}`, has size 1 ≤ 1, and removing it leaves an
acyclic graph. -/
theorem fvs_disjoint_sound_witness :
    (is_acyclic (exG5.subgraph ({1} : Finset ℕ)) = true ∧
      fvs_disjoint exG5 ({1} : Finset ℕ) 1 = .ok (some ({0} : Finset ℕ))) ∧
    ((∀ v ∈ ({0} : Finset ℕ), v ∉ ({1} : Finset ℕ)) ∧
      ((({0} : Finset ℕ).card : ℤ) ≤ 1) ∧
      is_acyclic (graph_minus exG5 ({0} : Finset ℕ)) = true) :=
  ⟨⟨by decide, by decide⟩,
    fvs_disjoint_sound exG5 ({1} : Finset ℕ) 1 ({0} : Finset ℕ)
      (by decide) (by decide)⟩

end IC
